import Mathlib

/-
Verification of the FolderOrganizer rule engine specification against the
repository's code.

The repository is a Tauri application: the React/TypeScript frontend is in
src/, while the Rust core (condition parser/serializer/evaluator, rule
applier, deletion scheduler, safe-delete/undo subsystem) is reached only
through `invoke` calls in src/src/api.ts and is not part of the available
sources.  Definitions for those components are therefore modelled from the
specification (their doc comments start with "Modelled from the spec:").
Frontend functions (createEmptyRule, canSave, the rule editor's validation
effect and save path, formatBytes, formatDisplayPath) are embedded directly
from the TypeScript sources.
-/

namespace FolderOrg

/-- Condition tree, from src/src/types.ts (`Condition`): a tagged union with
variants Glob, Regex, And, Or, Not, Always; And/Or carry lists of
sub-conditions. -/
inductive Condition where
  | Glob (pattern : String)
  | Regex (pattern : String)
  | And (conditions : List Condition)
  | Or (conditions : List Condition)
  | Not (condition : Condition)
  | Always
deriving Repr

/-- Action, from src/src/types.ts (`Action`): move to a destination directory,
or delete after a number of days. -/
inductive Action where
  | Move (destination : String)
  | Delete (after_days : Nat)
deriving Repr, DecidableEq

/-- Tokens of the condition text language: parentheses, the keywords
AND/OR/NOT, glob atoms and `/…/`-delimited regex atoms. -/
inductive Tok where
  | lp
  | rp
  | andT
  | orT
  | notT
  | globT (pattern : String)
  | regexT (pattern : String)
deriving Repr, DecidableEq

/-- Whitespace characters skipped by the tokenizer. -/
def isWsp (c : Char) : Bool :=
  c = ' ' || c = '\t' || c = '\n' || c = '\r'

/-- Characters that terminate a glob word: whitespace and parentheses. -/
def isDelim (c : Char) : Bool :=
  isWsp c || c = '(' || c = ')'

/-- Case-insensitive keyword recognition for AND / OR / NOT. -/
def keywordOf (w : List Char) : Option Tok :=
  let l := w.map Char.toLower
  if l = ['a', 'n', 'd'] then some .andT
  else if l = ['o', 'r'] then some .orT
  else if l = ['n', 'o', 't'] then some .notT
  else none

/-- Classify a completed word as a keyword token or a glob atom. -/
def classifyWord (w : List Char) : Tok :=
  match keywordOf w with
  | some t => t
  | none => .globT (String.mk w)

/-- Emit the pending word accumulator as zero or one token. -/
def emitWord (w : List Char) : List Tok :=
  match w with
  | [] => []
  | _ => [classifyWord w]

/-- Modelled from the spec: the tokenizer of the Condition Engine
(§4.1, backend `parse_condition_text`, not in src/).  One character at a
time; first argument is `some acc` while inside a `/…/` regex literal,
second argument accumulates the current glob/keyword word.  An unterminated
regex literal is a syntax error. -/
def tokA : Option (List Char) → List Char → List Char → Except String (List Tok)
  | some _, _, [] => .error "unterminated regex: missing closing /"
  | some racc, _, c :: cs =>
      if c = '/' then
        match tokA none [] cs with
        | .error e => .error e
        | .ok ts => .ok (.regexT (String.mk racc) :: ts)
      else tokA (some (racc ++ [c])) [] cs
  | none, wacc, [] => .ok (emitWord wacc)
  | none, wacc, c :: cs =>
      if isWsp c then
        match tokA none [] cs with
        | .error e => .error e
        | .ok ts => .ok (emitWord wacc ++ ts)
      else if c = '(' then
        match tokA none [] cs with
        | .error e => .error e
        | .ok ts => .ok (emitWord wacc ++ .lp :: ts)
      else if c = ')' then
        match tokA none [] cs with
        | .error e => .error e
        | .ok ts => .ok (emitWord wacc ++ .rp :: ts)
      else if c = '/' && wacc.isEmpty then
        tokA (some []) [] cs
      else
        tokA none (wacc ++ [c]) cs

/-- Modelled from the spec: tokenization of a condition text (§4.1). -/
def tokenize (s : String) : Except String (List Tok) :=
  tokA none [] s.data

/-- Collapse a parsed operand list at AND level: a single operand stays
itself, two or more become an `And` node. -/
def mkAnd : List Condition → Condition
  | [c] => c
  | cs => .And cs

/-- Collapse a parsed operand list at OR level. -/
def mkOr : List Condition → Condition
  | [c] => c
  | cs => .Or cs

mutual
/-- Modelled from the spec: recursive-descent parser of the Condition
Engine (§4.1, backend `parse_condition_text`, not in src/).  Precedence,
highest to lowest: NOT, AND, OR; same-precedence operators associate left
to right (AND/OR operands are collected into flat lists in reading order).
The first argument is recursion fuel; `parse` supplies more than enough. -/
def parseOr : Nat → List Tok → Except String (Condition × List Tok)
  | 0, _ => .error "condition too deeply nested"
  | f+1, ts =>
      match parseOrOps f ts with
      | .error e => .error e
      | .ok (cs, rest) => .ok (mkOr cs, rest)
/-- OR-separated operand list. -/
def parseOrOps : Nat → List Tok → Except String (List Condition × List Tok)
  | 0, _ => .error "condition too deeply nested"
  | f+1, ts =>
      match parseAnd f ts with
      | .error e => .error e
      | .ok (c, rest) =>
          match rest with
          | .orT :: rest2 =>
              match parseOrOps f rest2 with
              | .error e => .error e
              | .ok (cs, rest3) => .ok (c :: cs, rest3)
          | _ => .ok ([c], rest)
/-- AND level of the parser. -/
def parseAnd : Nat → List Tok → Except String (Condition × List Tok)
  | 0, _ => .error "condition too deeply nested"
  | f+1, ts =>
      match parseAndOps f ts with
      | .error e => .error e
      | .ok (cs, rest) => .ok (mkAnd cs, rest)
/-- AND-separated operand list. -/
def parseAndOps : Nat → List Tok → Except String (List Condition × List Tok)
  | 0, _ => .error "condition too deeply nested"
  | f+1, ts =>
      match parseNot f ts with
      | .error e => .error e
      | .ok (c, rest) =>
          match rest with
          | .andT :: rest2 =>
              match parseAndOps f rest2 with
              | .error e => .error e
              | .ok (cs, rest3) => .ok (c :: cs, rest3)
          | _ => .ok ([c], rest)
/-- NOT prefixes, atoms and parenthesized groups.  A bare `*` atom parses to
`Always` ("match everything"). -/
def parseNot : Nat → List Tok → Except String (Condition × List Tok)
  | 0, _ => .error "condition too deeply nested"
  | f+1, ts =>
      match ts with
      | .notT :: rest =>
          match parseNot f rest with
          | .error e => .error e
          | .ok (c, rest2) => .ok (.Not c, rest2)
      | .globT p :: rest => .ok (if p = "*" then .Always else .Glob p, rest)
      | .regexT p :: rest => .ok (.Regex p, rest)
      | .lp :: rest =>
          match parseOr f rest with
          | .error e => .error e
          | .ok (c, rest2) =>
              match rest2 with
              | .rp :: rest3 => .ok (c, rest3)
              | _ => .error "expected closing parenthesis"
      | _ => .error "expected a pattern"
end

/-- Modelled from the spec: `parse(text) -> Condition` of the Condition
Engine (§4.1, backend `parse_condition_text`, not in src/).  The empty (or
all-whitespace) string and the literal `*` parse to `Always`; malformed
text yields a syntax error. -/
def parse (s : String) : Except String Condition :=
  match tokenize s with
  | .error e => .error e
  | .ok [] => .ok .Always
  | .ok ts =>
      match parseOr (12 * ts.length + 12) ts with
      | .error e => .error e
      | .ok (c, []) => .ok c
      | .ok (_, _ :: _) => .error "unexpected trailing tokens"

mutual
/-- Modelled from the spec: token-level serialization of the Condition
Engine's `serialize(Condition) -> text` (§4.1, backend `condition_to_text`,
not in src/), at OR (outermost) precedence level.  Children of lower
binding strength are parenthesized so the text re-parses to an equal tree;
`Always` prints as `*`. -/
def toksOr : Condition → List Tok
  | .Or cs => toksOrList cs
  | .And cs => toksAndList cs
  | .Not c => .notT :: toksNot c
  | .Glob p => [.globT p]
  | .Regex p => [.regexT p]
  | .Always => [.globT "*"]
/-- OR-operand list serialization. -/
def toksOrList : List Condition → List Tok
  | [] => []
  | [c] => toksAnd c
  | c :: c2 :: cs => toksAnd c ++ .orT :: toksOrList (c2 :: cs)
/-- Serialization at AND precedence level (OR children get parentheses). -/
def toksAnd : Condition → List Tok
  | .And cs => toksAndList cs
  | .Or cs => .lp :: toksOrList cs ++ [.rp]
  | .Not c => .notT :: toksNot c
  | .Glob p => [.globT p]
  | .Regex p => [.regexT p]
  | .Always => [.globT "*"]
/-- AND-operand list serialization. -/
def toksAndList : List Condition → List Tok
  | [] => []
  | [c] => toksNot c
  | c :: c2 :: cs => toksNot c ++ .andT :: toksAndList (c2 :: cs)
/-- Serialization at NOT/atom precedence level (AND and OR children get
parentheses). -/
def toksNot : Condition → List Tok
  | .Not c => .notT :: toksNot c
  | .And cs => .lp :: toksAndList cs ++ [.rp]
  | .Or cs => .lp :: toksOrList cs ++ [.rp]
  | .Glob p => [.globT p]
  | .Regex p => [.regexT p]
  | .Always => [.globT "*"]
end

/-- Text of a single token. -/
def renderTok : Tok → List Char
  | .lp => ['(']
  | .rp => [')']
  | .andT => ['A', 'N', 'D']
  | .orT => ['O', 'R']
  | .notT => ['N', 'O', 'T']
  | .globT p => p.data
  | .regexT p => '/' :: p.data ++ ['/']

/-- Tokens joined by single spaces. -/
def renderToks : List Tok → List Char
  | [] => []
  | [t] => renderTok t
  | t :: t2 :: ts => renderTok t ++ ' ' :: renderToks (t2 :: ts)

/-- Modelled from the spec: `serialize(Condition) -> text` (§4.1, backend
`condition_to_text`, not in src/).  Produces text that re-parses to a
structurally equal tree; whitespace need not match the original input. -/
def serialize (c : Condition) : String :=
  String.mk (renderToks (toksOr c))

/-- Modelled from the spec: shell-style wildcard matching (`*`, `?`) used by
`Glob` conditions and whitelist patterns (§4.1, backend, not in src/),
with explicit recursion fuel (a star may skip any number of characters). -/
def globMatchF : Nat → List Char → List Char → Bool
  | 0, _, _ => false
  | _+1, [], s => s.isEmpty
  | f+1, '?' :: ps, s =>
      match s with
      | [] => false
      | _ :: ss => globMatchF f ps ss
  | f+1, '*' :: ps, s =>
      globMatchF f ps s ||
        (match s with
         | [] => false
         | _ :: ss => globMatchF f ('*' :: ps) ss)
  | f+1, c :: ps, s =>
      match s with
      | [] => false
      | d :: ss => c == d && globMatchF f ps ss

/-- Modelled from the spec: glob match of a pattern against a candidate
string; the fuel bound `|p| + |s| + 1` exceeds the recursion depth. -/
def globMatch (p s : String) : Bool :=
  globMatchF (p.length + s.length + 1) p.data s.data

mutual
/-- Modelled from the spec: `evaluate(Condition, candidate) -> bool` (§4.1,
backend `test_condition`, not in src/).  Pure; `Glob` uses shell-style
wildcard matching, `And`/`Or` are conjunction/disjunction over their
children, `Not` negates, `Always` is true.  Regex evaluation is delegated
to the parameter `rm` (pattern, candidate ↦ match) since the spec leaves
the regex dialect to the backend's regex engine. -/
def evaluate (rm : String → String → Bool) : Condition → String → Bool
  | .Glob p, s => globMatch p s
  | .Regex p, s => rm p s
  | .And cs, s => evalAll rm cs s
  | .Or cs, s => evalAny rm cs s
  | .Not c, s => !evaluate rm c s
  | .Always, _ => true
/-- Conjunction over a condition list. -/
def evalAll (rm : String → String → Bool) : List Condition → String → Bool
  | [], _ => true
  | c :: cs, s => evaluate rm c s && evalAll rm cs s
/-- Disjunction over a condition list. -/
def evalAny (rm : String → String → Bool) : List Condition → String → Bool
  | [], _ => false
  | c :: cs, s => evaluate rm c s || evalAny rm cs s
end

/-- A regex matcher that matches nothing; used to instantiate `evaluate`'s
regex parameter on concrete regex-free examples. -/
def noRegex : String → String → Bool := fun _ _ => false

/-- Lexical validity of a glob atom: nonempty, does not start the regex
delimiter, contains no delimiter characters, and is not a keyword. -/
def globTokenOK (w : List Char) : Prop :=
  w ≠ [] ∧ w.head? ≠ some '/' ∧ (∀ c ∈ w, isDelim c = false) ∧ keywordOf w = none

/-- Well-formedness of a token as produced by the tokenizer. -/
def tokWF : Tok → Prop
  | .globT p => globTokenOK p.data
  | .regexT p => ∀ c ∈ p.data, c ≠ '/'
  | _ => True

/-- All tokens of a list are well formed. -/
def tsWF (ts : List Tok) : Prop := ∀ t ∈ ts, tokWF t

/-- Invariant of the tokenizer's word accumulator. -/
def wordAccOK (w : List Char) : Prop :=
  w = [] ∨ (w.head? ≠ some '/' ∧ ∀ c ∈ w, isDelim c = false)

/-- Conditions in the image of the parser: glob atoms are lexically valid
and are not the bare `*` (which parses to `Always`), regex atoms contain no
delimiter, and And/Or nodes have at least two children. -/
inductive WF : Condition → Prop where
  | glob : ∀ p : String, globTokenOK p.data → p ≠ "*" → WF (.Glob p)
  | regex : ∀ p : String, (∀ c ∈ p.data, c ≠ '/') → WF (.Regex p)
  | always : WF .Always
  | not : ∀ c, WF c → WF (.Not c)
  | and : ∀ cs, 2 ≤ cs.length → (∀ c ∈ cs, WF c) → WF (.And cs)
  | or : ∀ cs, 2 ≤ cs.length → (∀ c ∈ cs, WF c) → WF (.Or cs)

/-- Rule, from src/src/types.ts (`Rule`): id, name, description, enabled
flag, condition tree with its text form, action, rule-level whitelist, and
the subdirectory-matching flag. -/
structure Rule where
  id : String
  name : String
  description : String
  enabled : Bool
  condition : Condition
  condition_text : String
  action : Action
  whitelist : List String
  match_subdirectories : Bool

/-- WatchedFolder, from src/src/types.ts (`WatchedFolder`): id, path,
enabled flag, ordered rules, folder-level whitelist, recursive-watch flag. -/
structure WatchedFolder where
  id : String
  path : String
  enabled : Bool
  rules : List Rule
  whitelist : List String
  watch_subdirectories : Bool

/-- A stable file event delivered by the Filesystem Monitor: the file's bare
name and its path relative to the watched folder root. -/
structure FileEvent where
  name : String
  relPath : String

/-- Modelled from the spec: the candidate string a pattern is matched
against — the relative path when the subdirectory flag is set, otherwise
the bare filename (§4.2). -/
def candidate (subdirFlag : Bool) (f : FileEvent) : String :=
  if subdirFlag then f.relPath else f.name

/-- Modelled from the spec: whitelist check — some glob pattern of the list
matches the candidate (§4.2). -/
def whitelistHit (patterns : List String) (cand : String) : Bool :=
  patterns.any (fun p => globMatch p cand)

/-- Modelled from the spec: a rule's whitelist check for a file — first the
folder-level whitelist, then the rule-level whitelist (§4.2); a hit means
this rule never fires for this file. -/
def ruleSkipsFile (folder : WatchedFolder) (r : Rule) (f : FileEvent) : Bool :=
  whitelistHit folder.whitelist (candidate folder.watch_subdirectories f) ||
    whitelistHit r.whitelist (candidate r.match_subdirectories f)

/-- Modelled from the spec: a rule fires for a file when it is enabled, not
whitelisted away, and its Condition matches the candidate (§4.2). -/
def fires (rm : String → String → Bool) (folder : WatchedFolder) (r : Rule)
    (f : FileEvent) : Bool :=
  r.enabled && !ruleSkipsFile folder r f &&
    evaluate rm r.condition (candidate r.match_subdirectories f)

/-- Modelled from the spec: the Rule Applier's decision over an ordered rule
list (§4.2, backend, not in src/): iterate in stored order, skip disabled
rules and whitelist hits, execute the Action of the first rule whose
Condition matches, evaluate no later rules; `none` when no rule matches
(file left untouched). -/
def applyRulesList (rm : String → String → Bool) (folder : WatchedFolder) :
    List Rule → FileEvent → Option Action
  | [], _ => none
  | r :: rs, f =>
      if fires rm folder r f then some r.action else applyRulesList rm folder rs f

/-- Modelled from the spec: the Rule Applier's decision for a stable file
event in a watched folder (§4.2). -/
def applyRules (rm : String → String → Bool) (folder : WatchedFolder)
    (f : FileEvent) : Option Action :=
  applyRulesList rm folder folder.rules f

/-- JavaScript's `String.prototype.trim()`: strip whitespace from both
ends, embedded structurally over the character list. -/
def jsTrim (s : String) : String :=
  String.mk (((s.data.dropWhile fun c => isWsp c).reverse.dropWhile fun c => isWsp c).reverse)

/-- From src/src/pages/rules/helpers.ts (`createEmptyRule`): a freshly
created rule is enabled, matches everything (`Always` paired with text
`*`), and has a Move action with an empty destination.  The generated uuid
is passed in as a parameter. -/
def createEmptyRule (uuid : String) : Rule :=
  { id := uuid
    name := ""
    description := ""
    enabled := true
    condition := .Always
    condition_text := "*"
    action := .Move ""
    whitelist := []
    match_subdirectories := false }

/-- From src/src/pages/rules/RuleEditor.tsx (`canSave`): the save button is
enabled only when the name is nonblank, the condition text is valid, and a
Move action has a nonblank destination. -/
def canSave (draft : Rule) (conditionValid : Bool) : Bool :=
  !(jsTrim draft.name == "") && conditionValid &&
    (match draft.action with
     | .Move destination => !(jsTrim destination == "")
     | .Delete _ => true)

/-- Outcome of the rule editor's debounced condition-validation effect:
whether the text was judged valid, and whether the backend validator was
consulted to decide that. -/
structure ValidationOutcome where
  valid : Bool
  consultedValidator : Bool
deriving Repr, DecidableEq

/-- From src/src/pages/rules/RuleEditor.tsx (validation effect, lines
44-61): blank text or the literal `*` is accepted immediately without
calling `api.validateConditionText`; any other text is valid exactly when
the backend validator accepts it.  The validator's verdict is passed in as
`validatorAccepts`. -/
def editorValidate (validatorAccepts : Bool) (text : String) : ValidationOutcome :=
  if jsTrim text == "" || jsTrim text == "*" then ⟨true, false⟩
  else ⟨validatorAccepts, true⟩

/-- From src/src/pages/rules/RuleEditor.tsx (`handleSave`): the saved rule
stores the parse of the edited condition text as its condition, together
with that text; a parse error aborts the save. -/
def handleSaveRule (draft : Rule) (text : String) : Option Rule :=
  match parse text with
  | .ok c => some { draft with condition := c, condition_text := text }
  | .error _ => none

/-- FileIndexEntry as the Deletion Scheduler sees it, after
src/src/types.ts (`FileIndexEntry`) and spec §3: tracked path, whether a
delete is pending, first-seen timestamp and the owning rule's `after_days`.
Timestamps are seconds. -/
structure FileIndexEntryM where
  file_path : String
  pendingDelete : Bool
  first_seen : Nat
  after_days : Nat
deriving Repr, DecidableEq

/-- Modelled from the spec: the due date of a pending delete — `first_seen +
after_days` (in days; 86400 seconds per day) (§3 Glossary, §4.2). -/
def dueAt (e : FileIndexEntryM) : Nat :=
  e.first_seen + e.after_days * 86400

/-- Modelled from the spec: one Deletion Scheduler pass at time `now`
selects exactly the entries whose pending action is delete and whose due
timestamp is ≤ now (§4.4, backend, not in src/). -/
def schedulerPass (now : Nat) (entries : List FileIndexEntryM) : List FileIndexEntryM :=
  entries.filter (fun e => e.pendingDelete && decide (dueAt e ≤ now))

/-- Errors of the undo operation, from spec §4.5/§7. -/
inductive UndoError where
  | NotFoundError
  | AlreadyRestoredError
  | ExpiredError
  | IoError
deriving Repr, DecidableEq

/-- UndoEntry, from src/src/types.ts (`UndoEntry`): id, original path,
current trash-staging path, expiry timestamp (seconds) and restored flag. -/
structure UndoEntryM where
  id : String
  original_path : String
  current_path : String
  expires_at : Nat
  restored : Bool
deriving Repr, DecidableEq

/-- State touched by undo: the undo table and the set of existing file
paths (trash staging and restored locations). -/
structure UndoState where
  entries : List UndoEntryM
  files : List String
deriving Repr, DecidableEq

/-- Modelled from the spec: `undo(undo_id)` (§4.5, backend `undo_action`,
not in src/).  Fails with NotFoundError when no entry has the id,
AlreadyRestoredError when the entry is already restored, ExpiredError when
`now > expires_at`, and IoError when a conflicting file already occupies
the original path; on success the staged file moves back to the original
path and the entry's restored flag is set. -/
def undo (st : UndoState) (now : Nat) (uid : String) : Except UndoError UndoState :=
  match st.entries.find? (fun e => e.id == uid) with
  | none => .error .NotFoundError
  | some e =>
      if e.restored then .error .AlreadyRestoredError
      else if decide (e.expires_at < now) then .error .ExpiredError
      else if st.files.contains e.original_path then .error .IoError
      else
        .ok { entries := st.entries.map
                (fun e2 => if e2.id == uid then { e2 with restored := true } else e2)
              files := e.original_path :: st.files.erase e.current_path }

/-- The state after an undo call: unchanged on any error, the new state on
success. -/
def undoStateAfter (st : UndoState) (now : Nat) (uid : String) : UndoState :=
  match undo st now uid with
  | .error _ => st
  | .ok st2 => st2

/-- The unit array of src/src/pages/Settings.tsx (`formatBytes`). -/
def sizesUnits : List String := ["B", "KB", "MB", "GB"]

/-- `10 * num / den` rounded half-up to an integer number of tenths,
modelling JavaScript's `(num / den).toFixed(1)` exactly over the rationals. -/
def roundTenths (num den : Nat) : Nat :=
  (20 * num + den) / (2 * den)

/-- Render a number of tenths as a decimal string with one decimal place. -/
def renderTenths (tenths : Nat) : String :=
  Nat.repr (tenths / 10) ++ "." ++ Nat.repr (tenths % 10)

/-- From src/src/pages/Settings.tsx (`formatBytes`): "0 B" for zero,
otherwise the value scaled by 1024^i with one decimal place, and the unit
`sizes[i]` where `i = floor(log_1024 bytes)`.  JavaScript's
`Math.floor(Math.log(bytes) / Math.log(1024))` is modelled as the exact
`Nat.log 1024`, and an out-of-range `sizes[i]` access renders as the string
"undefined", as JavaScript template interpolation does. -/
def formatBytes (bytes : Nat) : String :=
  if bytes = 0 then "0 B"
  else
    let i := Nat.log 1024 bytes
    renderTenths (roundTenths bytes (1024 ^ i)) ++ " " ++ (sizesUnits.getD i "undefined")

/-- Path separator characters recognized by src/src/pages/Dashboard.tsx. -/
def isSepChar (c : Char) : Bool :=
  c = '\\' || c = '/'

/-- From src/src/pages/Dashboard.tsx (`formatDisplayPath`): the separator
used for joining — backslash when the path contains one, else slash. -/
def pathSep (p : List Char) : Char :=
  if p.contains '\\' then '\\' else '/'

/-- `split(/[\\/]/)` of JavaScript over a character list: split at every
separator character, keeping empty segments. -/
def splitSegs : List Char → List (List Char)
  | [] => [[]]
  | c :: cs =>
      if isSepChar c then [] :: splitSegs cs
      else
        match splitSegs cs with
        | [] => [[c]]
        | q :: qs => (c :: q) :: qs

/-- `Array.join(sep)` over character-list segments. -/
def joinSegs (sep : Char) : List (List Char) → List Char
  | [] => []
  | [q] => q
  | q :: q2 :: qs => q ++ sep :: joinSegs sep (q2 :: qs)

/-- From src/src/pages/Dashboard.tsx (`formatDisplayPath`, lines 31-46):
split a full path into (directory part, file name); paths of more than 5
segments have their middle collapsed to `..` keeping the first two and last
two directory segments.  Strings are embedded as character lists. -/
def formatDisplayPath (p : List Char) : List Char × List Char :=
  let sep := pathSep p
  let allParts := splitSegs p
  if allParts.length ≤ 1 then ([], p)
  else
    let name := allParts.getLastD []
    let dirParts := allParts.dropLast
    if dirParts.length ≤ 4 then (joinSegs sep dirParts, name)
    else
      (joinSegs sep (dirParts.take 2) ++
         sep :: '.' :: '.' :: sep :: joinSegs sep (dirParts.drop (dirParts.length - 2)),
       name)

/-- Fixture: rule A of the spec's priority example — `*.tmp` → Delete. -/
def ruleTmpDelete : Rule :=
  { id := "A"
    name := "A"
    description := ""
    enabled := true
    condition := .Glob "*.tmp"
    condition_text := "*.tmp"
    action := .Delete 0
    whitelist := []
    match_subdirectories := false }

/-- Fixture: rule B of the spec's priority example — `*` → Move(X). -/
def ruleAllMove : Rule :=
  { id := "B"
    name := "B"
    description := ""
    enabled := true
    condition := .Always
    condition_text := "*"
    action := .Move "X"
    whitelist := []
    match_subdirectories := false }

/-- Fixture: a watched folder holding the given rules, with no folder-level
whitelist. -/
def mkFolder (rs : List Rule) : WatchedFolder :=
  { id := "F"
    path := "D:\\watched"
    enabled := true
    rules := rs
    whitelist := []
    watch_subdirectories := false }

/-- Fixture: the stable file event for `a.tmp`. -/
def eventATmp : FileEvent := { name := "a.tmp", relPath := "a.tmp" }

/-- Fixture: a rule whose condition matches everything but whose rule-level
whitelist covers `*.tmp`, so it must be skipped for `a.tmp`. -/
def ruleWhitelisted : Rule :=
  { id := "W"
    name := "W"
    description := ""
    enabled := true
    condition := .Always
    condition_text := "*"
    action := .Delete 0
    whitelist := ["*.tmp"]
    match_subdirectories := false }

/-- Fixture: an entry five days from deletion, first seen at
1700000000 s. -/
def entryAfter5 : FileIndexEntryM :=
  { file_path := "f.txt", pendingDelete := true, first_seen := 1700000000, after_days := 5 }

/-- Fixture: an entry with `after_days = 0`, first seen at 1700000000 s. -/
def entryAfter0 : FileIndexEntryM :=
  { file_path := "g.txt", pendingDelete := true, first_seen := 1700000000, after_days := 0 }

/-- Fixture: one unrestored undo entry staged in trash, expiring at
1000 s, with no conflicting file at the original path. -/
def undoStFixture : UndoState :=
  { entries := [{ id := "u1", original_path := "C:\\f.txt", current_path := "T:\\u1",
                  expires_at := 1000, restored := false }]
    files := ["T:\\u1"] }

theorem applyRulesList_eq_find (rm : String → String → Bool) (folder : WatchedFolder)
    (rs : List Rule) (f : FileEvent) :
    applyRulesList rm folder rs f =
      (List.find? (fun r => fires rm folder r f) rs).map (fun r => r.action) := by
  induction rs with
  | nil => rfl
  | cons r rs ih =>
      by_cases h : fires rm folder r f
      · simp [applyRulesList, h, List.find?_cons_of_pos]
      · simp only [Bool.not_eq_true] at h
        simp [applyRulesList, h, List.find?_cons_of_neg, ih]

/-- C1: For every watched folder and every stable file event, the Rule
Applier iterates the folder's rules in stored order, skips disabled rules,
and executes the Action of the first enabled, non-whitelisted rule whose
Condition matches the file, evaluating no later rules; if no rule matches,
the file is left untouched.  With rules [A: `*.tmp` → Delete, B: `*` →
Move(X)] in that order, `a.tmp` is deleted, not moved; with order [B, A] it
is moved instead. -/
theorem rule_applier_first_match_wins :
    (∀ (rm : String → String → Bool) (folder : WatchedFolder) (rs : List Rule) (f : FileEvent),
        applyRules rm { folder with rules := rs } f =
          (List.find? (fun r => fires rm { folder with rules := rs } r f) rs).map
            (fun r => r.action))
    ∧ applyRules noRegex (mkFolder [ruleTmpDelete, ruleAllMove]) eventATmp = some (.Delete 0)
    ∧ applyRules noRegex (mkFolder [ruleAllMove, ruleTmpDelete]) eventATmp = some (.Move "X")
    ∧ applyRules noRegex (mkFolder []) eventATmp = none := by
  refine ⟨fun rm folder rs f => applyRulesList_eq_find rm _ rs f, by rfl, by rfl, by rfl⟩

/-- C2: a whitelisted rule never fires for the file, but evaluation does not
stop there: applying `r :: rs` equals applying `rs` when `r` is
whitelist-hit, so a later non-whitelisted matching rule can still fire —
concretely, a whitelisted match-all first rule is skipped for `a.tmp` and
the later Move rule fires. -/
theorem whitelist_skips_rule_but_continues :
    (∀ (rm : String → String → Bool) (folder : WatchedFolder) (r : Rule) (rs : List Rule)
        (f : FileEvent), ruleSkipsFile folder r f = true →
        fires rm folder r f = false ∧
          applyRulesList rm folder (r :: rs) f = applyRulesList rm folder rs f)
    ∧ applyRules noRegex (mkFolder [ruleWhitelisted, ruleAllMove]) eventATmp = some (.Move "X") := by
  constructor
  · intro rm folder r rs f h
    have hf : fires rm folder r f = false := by simp [fires, h]
    exact ⟨hf, by simp [applyRulesList, hf]⟩
  · rfl

/-- Witness for C2 at a concrete input: the whitelisted rule does not fire
for `a.tmp` and evaluation continues past it. -/
theorem whitelist_skips_rule_but_continues_witness :
    fires noRegex (mkFolder [ruleWhitelisted, ruleAllMove]) ruleWhitelisted eventATmp = false ∧
      applyRulesList noRegex (mkFolder [ruleWhitelisted, ruleAllMove])
          [ruleWhitelisted, ruleAllMove] eventATmp =
        applyRulesList noRegex (mkFolder [ruleWhitelisted, ruleAllMove]) [ruleAllMove] eventATmp :=
  whitelist_skips_rule_but_continues.1 noRegex (mkFolder [ruleWhitelisted, ruleAllMove])
    ruleWhitelisted [ruleAllMove] eventATmp (by rfl)

/-- C5: a pending delete's due timestamp is `first_seen + after_days` (in
days), and a Deletion Scheduler pass at time `now` selects an entry exactly
when the due timestamp is ≤ now: the five-day entry is selected at
`T + 5 days`, not at `T + 5 days − 1 s`, and an `after_days = 0` entry is
eligible immediately. -/
theorem deletion_scheduler_due_date :
    (∀ e : FileIndexEntryM, dueAt e = e.first_seen + e.after_days * 86400)
    ∧ (∀ (now : Nat) (entries : List FileIndexEntryM) (e : FileIndexEntryM),
        e ∈ schedulerPass now entries ↔
          e ∈ entries ∧ e.pendingDelete = true ∧ dueAt e ≤ now)
    ∧ schedulerPass (1700000000 + 5 * 86400) [entryAfter5] = [entryAfter5]
    ∧ schedulerPass (1700000000 + 5 * 86400 - 1) [entryAfter5] = []
    ∧ schedulerPass 1700000000 [entryAfter0] = [entryAfter0] := by
  refine ⟨fun _ => rfl, ?_, by rfl, by rfl, by rfl⟩
  intro now entries e
  simp [schedulerPass, List.mem_filter, and_assoc]

/-- C7: the empty condition text and the literal `*` both parse to `Always`,
which evaluates to true on every candidate; the rule editor accepts blank
or `*` text without consulting the validator, and a newly created rule
pairs the text `*` with the `Always` condition. -/
theorem empty_and_star_match_everything :
    parse "" = .ok .Always
    ∧ parse "*" = .ok .Always
    ∧ (∀ (rm : String → String → Bool) (s : String), evaluate rm .Always s = true)
    ∧ (∀ uuid, (createEmptyRule uuid).condition = .Always
        ∧ (createEmptyRule uuid).condition_text = "*")
    ∧ (∀ validatorAccepts : Bool,
        editorValidate validatorAccepts "" = ⟨true, false⟩
        ∧ editorValidate validatorAccepts "*" = ⟨true, false⟩
        ∧ editorValidate validatorAccepts " * " = ⟨true, false⟩) :=
  ⟨rfl, rfl, fun _ _ => rfl, fun _ => ⟨rfl, rfl⟩, fun _ => ⟨rfl, rfl, rfl⟩⟩

/-- C8: every Move rule accepted by the rule editor's save gate has a
nonblank destination — `canSave` is false otherwise — even though a freshly
created rule starts with an empty Move destination. -/
theorem saved_move_rule_has_nonempty_destination :
    (∀ (draft : Rule) (conditionValid : Bool) (dest : String),
        canSave draft conditionValid = true → draft.action = .Move dest →
        ¬(jsTrim dest = ""))
    ∧ (∀ uuid, (createEmptyRule uuid).action = .Move ""
        ∧ canSave { createEmptyRule uuid with name := "n" } true = false) := by
  constructor
  · intro draft v dest h hm
    unfold canSave at h
    rw [hm] at h
    simp only [Bool.and_eq_true, Bool.not_eq_true'] at h
    exact beq_eq_false_iff_ne.mp h.2
  · intro uuid
    exact ⟨rfl, rfl⟩

/-- Witness for C8 at a concrete input: a draft whose save gate is open and
whose action is `Move "D:\\Sorted"` has a nonblank destination. -/
theorem saved_move_rule_has_nonempty_destination_witness :
    ¬(jsTrim "D:\\Sorted" = "") :=
  saved_move_rule_has_nonempty_destination.1
    { createEmptyRule "u" with name := "n", action := .Move "D:\\Sorted" } true
    "D:\\Sorted" (by rfl) (by rfl)

/-- C4: NOT binds tightest, then AND, then OR, with left-to-right
association (AND/OR collect flat operand lists in reading order); the
spec's example text parses to Or(Glob *.pdf, And(Glob *.docx, Glob
*invoice*)) and evaluates accordingly on every candidate. -/
theorem operator_precedence :
    parse "*.pdf OR *.docx AND *invoice*" =
      .ok (.Or [.Glob "*.pdf", .And [.Glob "*.docx", .Glob "*invoice*"]])
    ∧ (∀ (rm : String → String → Bool) (name : String),
        evaluate rm (.Or [.Glob "*.pdf", .And [.Glob "*.docx", .Glob "*invoice*"]]) name =
          (globMatch "*.pdf" name || (globMatch "*.docx" name && globMatch "*invoice*" name)))
    ∧ parse "NOT *.tmp AND *.log" = .ok (.And [.Not (.Glob "*.tmp"), .Glob "*.log"])
    ∧ parse "a OR b OR c" = .ok (.Or [.Glob "a", .Glob "b", .Glob "c"])
    ∧ parse "a AND b AND c" = .ok (.And [.Glob "a", .Glob "b", .Glob "c"])
    ∧ parse "(*.pdf OR *.docx) AND *report*" =
      .ok (.And [.Or [.Glob "*.pdf", .Glob "*.docx"], .Glob "*report*"]) := by
  refine ⟨by rfl, ?_, by rfl, by rfl, by rfl, by rfl⟩
  intro rm name
  simp [evaluate, evalAny, evalAll, Bool.or_false, Bool.and_true]

/-- The entry update performed by a successful undo preserves ids, so
`find?` by id commutes with it. -/
theorem find?_restoreUpd (l : List UndoEntryM) (uid : String) :
    (l.map (fun e2 => if e2.id == uid then { e2 with restored := true } else e2)).find?
        (fun e2 => e2.id == uid) =
      (l.find? (fun e2 => e2.id == uid)).map (fun e => { e with restored := true }) := by
  induction l with
  | nil => rfl
  | cons e l ih =>
      cases h : (e.id == uid) with
      | true =>
          simp only [List.map_cons, if_pos h, List.find?, h, Option.map_some']
          simp [h]
      | false =>
          have h2 : ¬((e.id == uid) = true) := by simp [h]
          simp only [List.map_cons, if_neg h2, List.find?, h, ih]
          simp [h]

/-- C6: `undo(undo_id)` fails with NotFoundError when no entry has that id,
AlreadyRestoredError when the entry is restored, ExpiredError when
`now > expires_at`; on success it puts the staged file back at the original
path and marks the entry restored, so a second undo of the same id always
fails with AlreadyRestoredError; on IoError (conflicting file at the
original path) the state is left unchanged, as on every error. -/
theorem undo_lifecycle :
    (∀ (st : UndoState) (now : Nat) (uid : String),
        st.entries.find? (fun e2 => e2.id == uid) = none →
        undo st now uid = .error .NotFoundError)
    ∧ (∀ (st : UndoState) (now : Nat) (uid : String) (e : UndoEntryM),
        st.entries.find? (fun e2 => e2.id == uid) = some e → e.restored = true →
        undo st now uid = .error .AlreadyRestoredError)
    ∧ (∀ (st : UndoState) (now : Nat) (uid : String) (e : UndoEntryM),
        st.entries.find? (fun e2 => e2.id == uid) = some e → e.restored = false →
        e.expires_at < now →
        undo st now uid = .error .ExpiredError)
    ∧ (∀ (st : UndoState) (now : Nat) (uid : String) (e : UndoEntryM),
        st.entries.find? (fun e2 => e2.id == uid) = some e → e.restored = false →
        ¬ e.expires_at < now → st.files.contains e.original_path = false →
        ∃ st2, undo st now uid = .ok st2
          ∧ st2.files.contains e.original_path = true
          ∧ st2.entries.find? (fun e2 => e2.id == uid) = some { e with restored := true }
          ∧ ∀ now2, undo st2 now2 uid = .error .AlreadyRestoredError)
    ∧ (∀ (st : UndoState) (now : Nat) (uid : String) (err : UndoError),
        undo st now uid = .error err → undoStateAfter st now uid = st) := by
  refine ⟨?_, ?_, ?_, ?_, ?_⟩
  · intro st now uid h
    simp only [undo, h]
  · intro st now uid e hfind hrest
    simp only [undo, hfind]
    rw [if_pos hrest]
  · intro st now uid e hfind hrest hlt
    have h1 : ¬(e.restored = true) := by simp [hrest]
    have h2 : decide (e.expires_at < now) = true := by simpa using hlt
    simp only [undo, hfind]
    rw [if_neg h1, if_pos h2]
  · intro st now uid e hfind hrest hexp hconf
    have hfind2 : (st.entries.map
        (fun e2 => if e2.id == uid then { e2 with restored := true } else e2)).find?
          (fun e2 => e2.id == uid) = some { e with restored := true } := by
      rw [find?_restoreUpd, hfind]
      rfl
    have h1 : ¬(e.restored = true) := by simp [hrest]
    have h2 : ¬(decide (e.expires_at < now) = true) := by simpa using hexp
    have h3 : ¬(st.files.contains e.original_path = true) := by rw [hconf]; simp
    refine ⟨{ entries := st.entries.map
                (fun e2 => if e2.id == uid then { e2 with restored := true } else e2),
              files := e.original_path :: st.files.erase e.current_path }, ?_, ?_, hfind2, ?_⟩
    · simp only [undo, hfind]
      rw [if_neg h1, if_neg h2, if_neg h3]
    · simp [List.contains_cons]
    · intro now2
      simp only [undo, hfind2]
      rw [if_pos trivial]
  · intro st now uid err h
    simp [undoStateAfter, h]

/-- Witness for C6 at a concrete input: undoing the fixture entry before
expiry succeeds, restores the file to its original path, marks the entry
restored, and a second undo always fails with AlreadyRestoredError. -/
theorem undo_lifecycle_witness :
    ∃ st2, undo undoStFixture 500 "u1" = .ok st2
      ∧ st2.files.contains "C:\\f.txt" = true
      ∧ st2.entries.find? (fun e2 => e2.id == "u1") =
          some { id := "u1", original_path := "C:\\f.txt", current_path := "T:\\u1",
                 expires_at := 1000, restored := true }
      ∧ ∀ now2, undo st2 now2 "u1" = .error .AlreadyRestoredError :=
  undo_lifecycle.2.2.2.1 undoStFixture 500 "u1"
    { id := "u1", original_path := "C:\\f.txt", current_path := "T:\\u1",
      expires_at := 1000, restored := false }
    (by rfl) (by rfl) (by decide) (by rfl)

/-- C9 counterexample: at 2 TiB (`2^41` bytes, an input the function's type
admits) the unit index `floor(log_1024 n)` is 4, outside the four-element
unit array, and the rendered unit is the string "undefined". -/
theorem formatBytes_counterexample :
    4 ≤ Nat.log 1024 (2 ^ 41)
    ∧ sizesUnits.length = 4
    ∧ formatBytes (2 ^ 41) = "2.0 undefined" := by
  have hlog : Nat.log 1024 (2 ^ 41) = 4 :=
    Nat.log_eq_of_pow_le_of_lt_pow (by norm_num) (by norm_num)
  refine ⟨hlog.ge, rfl, ?_⟩
  rw [formatBytes, if_neg (by norm_num), hlog]
  rfl

/-- C9 (amended): formatBytes returns "0 B" at 0 and otherwise renders
`n / 1024^i` to one decimal followed by the unit `sizes[i]` with
`i = floor(log_1024 n)`; the unit index stays inside the four-element array
for every input below `1024^4` (1 TiB), while larger inputs escape it
(see the counterexample). -/
theorem formatBytes_amended :
    formatBytes 0 = "0 B"
    ∧ formatBytes 1536 = "1.5 KB"
    ∧ (∀ n : Nat, 0 < n → n < 1024 ^ 4 →
        Nat.log 1024 n < sizesUnits.length
        ∧ 1024 ^ Nat.log 1024 n ≤ n
        ∧ n < 1024 ^ (Nat.log 1024 n + 1)
        ∧ formatBytes n =
            renderTenths (roundTenths n (1024 ^ Nat.log 1024 n)) ++ " " ++
              sizesUnits.getD (Nat.log 1024 n) "undefined"
        ∧ sizesUnits.getD (Nat.log 1024 n) "undefined" ∈ sizesUnits) := by
  refine ⟨rfl, ?_, ?_⟩
  · have hlog : Nat.log 1024 1536 = 1 :=
      Nat.log_eq_of_pow_le_of_lt_pow (by norm_num) (by norm_num)
    rw [formatBytes, if_neg (by norm_num), hlog]
    rfl
  · intro n h0 h4
    have hne : n ≠ 0 := Nat.pos_iff_ne_zero.mp h0
    have hlt : Nat.log 1024 n < 4 := Nat.log_lt_of_lt_pow hne h4
    refine ⟨by simpa [sizesUnits] using hlt, Nat.pow_log_le_self 1024 hne,
      Nat.lt_pow_succ_log_self (by norm_num) n, ?_, ?_⟩
    · rw [formatBytes, if_neg hne]
    · set i := Nat.log 1024 n with hi
      interval_cases i <;> simp [sizesUnits]

/-- Witness for C9's amended theorem at the concrete input 1048576 (1 MiB):
the unit index is inside the array. -/
theorem formatBytes_amended_witness :
    Nat.log 1024 1048576 < sizesUnits.length :=
  (formatBytes_amended.2.2 1048576 (by norm_num) (by norm_num)).1

theorem splitSegs_ne_nil (p : List Char) : splitSegs p ≠ [] := by
  cases p with
  | nil => simp [splitSegs]
  | cons c cs =>
      rw [splitSegs]
      split
      · simp
      · cases h : splitSegs cs <;> simp

theorem joinSegs_splitSegs (sep : Char) (p : List Char)
    (huni : ∀ c ∈ p, isSepChar c = true → c = sep) :
    joinSegs sep (splitSegs p) = p := by
  induction p with
  | nil => rfl
  | cons c cs ih =>
      have ih2 := ih (fun c2 hc2 h2 => huni c2 (List.mem_cons_of_mem _ hc2) h2)
      rw [splitSegs]
      by_cases h : isSepChar c = true
      · rw [if_pos h]
        have hc : c = sep := huni c (List.mem_cons_self _ _) h
        rcases hq : splitSegs cs with _ | ⟨q, qs⟩
        · exact absurd hq (splitSegs_ne_nil cs)
        · have hjoin : joinSegs sep ([] :: q :: qs) = sep :: joinSegs sep (q :: qs) := by
            simp [joinSegs]
          rw [hjoin, ← hq, ih2, hc]
      · rw [if_neg h]
        rcases hq : splitSegs cs with _ | ⟨q, qs⟩
        · exact absurd hq (splitSegs_ne_nil cs)
        · rw [hq] at ih2
          have hjoin : joinSegs sep ((c :: q) :: qs) = c :: joinSegs sep (q :: qs) := by
            cases qs <;> simp [joinSegs]
          rw [hjoin, ih2]

theorem splitSegs_sepFree (p : List Char) :
    ∀ q ∈ splitSegs p, ∀ c ∈ q, isSepChar c = false := by
  induction p with
  | nil =>
      intro q hmemq
      simp only [splitSegs, List.mem_singleton] at hmemq
      simp [hmemq]
  | cons c cs ih =>
      intro q hmemq
      rw [splitSegs] at hmemq
      by_cases h : isSepChar c = true
      · rw [if_pos h] at hmemq
        rcases List.mem_cons.mp hmemq with hq | hq
        · simp [hq]
        · exact ih q hq
      · rw [if_neg h] at hmemq
        rcases hsp : splitSegs cs with _ | ⟨q2, qs⟩
        · exact absurd hsp (splitSegs_ne_nil cs)
        · rw [hsp] at hmemq
          rcases List.mem_cons.mp hmemq with hq | hq
          · intro c2 hc2
            rw [hq] at hc2
            rcases List.mem_cons.mp hc2 with h2 | h2
            · rw [h2]
              exact Bool.not_eq_true _ |>.mp h
            · exact ih q2 (hsp ▸ List.mem_cons_self _ _) c2 h2
          · exact ih q (hsp ▸ List.mem_cons_of_mem _ hq)

theorem splitSegs_sepFreeSingle (q : List Char) (h : ∀ c ∈ q, isSepChar c = false) :
    splitSegs q = [q] := by
  induction q with
  | nil => rfl
  | cons c cs ih =>
      rw [splitSegs, if_neg (by simp [h c (List.mem_cons_self _ _)]),
        ih (fun c2 hc2 => h c2 (List.mem_cons_of_mem _ hc2))]

theorem splitSegs_append_sep (q : List Char) (s : Char) (rest : List Char)
    (hq : ∀ c ∈ q, isSepChar c = false) (hs : isSepChar s = true) :
    splitSegs (q ++ s :: rest) = q :: splitSegs rest := by
  induction q with
  | nil => simp [splitSegs, hs]
  | cons c cs ih =>
      rw [List.cons_append, splitSegs, if_neg (by simp [hq c (List.mem_cons_self _ _)]),
        ih (fun c2 hc2 => hq c2 (List.mem_cons_of_mem _ hc2))]

theorem splitSegs_joinSegs (sep : Char) (qs : List (List Char)) (hne : qs ≠ [])
    (hsep : isSepChar sep = true) (hfree : ∀ q ∈ qs, ∀ c ∈ q, isSepChar c = false) :
    splitSegs (joinSegs sep qs) = qs := by
  induction qs with
  | nil => exact absurd rfl hne
  | cons q qs ih =>
      cases qs with
      | nil => exact splitSegs_sepFreeSingle q (hfree q (List.mem_cons_self _ _))
      | cons q2 qs2 =>
          rw [joinSegs,
            splitSegs_append_sep q sep _ (hfree q (List.mem_cons_self _ _)) hsep,
            ih (by simp) (fun q3 hq3 => hfree q3 (List.mem_cons_of_mem _ hq3))]

theorem joinSegs_append (sep : Char) (xs ys : List (List Char)) (hx : xs ≠ [])
    (hy : ys ≠ []) :
    joinSegs sep (xs ++ ys) = joinSegs sep xs ++ sep :: joinSegs sep ys := by
  induction xs with
  | nil => exact absurd rfl hx
  | cons x xs ih =>
      cases xs with
      | nil =>
          rcases ys with _ | ⟨y, ys2⟩
          · exact absurd rfl hy
          · simp [joinSegs]
      | cons x2 xs2 =>
          have ih2 := ih (by simp)
          simp only [List.cons_append] at ih2 ⊢
          rw [joinSegs, ih2, joinSegs]
          simp [List.cons_append]

theorem char_contains_iff (p : List Char) (c : Char) : p.contains c = true ↔ c ∈ p := by
  simp [List.contains_iff_exists_mem_beq]

theorem pathSep_isSep (p : List Char) : isSepChar (pathSep p) = true := by
  rw [pathSep]
  split <;> rfl

theorem pathSep_uniform (p : List Char)
    (huni : p.contains '\\' = false ∨ p.contains '/' = false) :
    ∀ c ∈ p, isSepChar c = true → c = pathSep p := by
  intro c hc hsep
  have hcs : c = '\\' ∨ c = '/' := by simpa [isSepChar] using hsep
  rcases huni with h | h
  · have hb : ('\\' : Char) ∉ p := fun hmem => by
      rw [(char_contains_iff p '\\').mpr hmem] at h
      cases h
    rcases hcs with rfl | rfl
    · exact absurd hc hb
    · rw [pathSep, if_neg (by rw [h]; simp)]
  · have hb : ('/' : Char) ∉ p := fun hmem => by
      rw [(char_contains_iff p '/').mpr hmem] at h
      cases h
    rcases hcs with rfl | rfl
    · rw [pathSep, if_pos ((char_contains_iff p '\\').mpr hc)]
    · exact absurd hc hb

theorem joinSegs_singleton (sep : Char) (q : List Char) : joinSegs sep [q] = q := by
  simp [joinSegs]

theorem dropLast_append_getLastD {α : Type} :
    ∀ l : List α, l ≠ [] → ∀ d : α, l.dropLast ++ [l.getLastD d] = l := by
  intro l
  induction l with
  | nil => intro h; exact absurd rfl h
  | cons x l ih =>
      intro _ d
      cases l with
      | nil => rfl
      | cons y t =>
          rw [List.dropLast_cons₂, List.getLastD_cons, List.cons_append, ih (by simp) x]

/-- C10 (amended): over paths whose separators are uniform (all backslash
or all slash), `formatDisplayPath` returns the last segment as the name;
with 2..5 segments the directory part joined with the separator and the
name reproduces the input path; with more than 5 segments the directory
part's segments are the first two, then "..", then the last two. -/
theorem formatDisplayPath_uniform (p : List Char)
    (huni : p.contains '\\' = false ∨ p.contains '/' = false) :
    (formatDisplayPath p).2 = (splitSegs p).getLastD []
    ∧ (2 ≤ (splitSegs p).length → (splitSegs p).length ≤ 5 →
        (formatDisplayPath p).1 ++ pathSep p :: (formatDisplayPath p).2 = p)
    ∧ (5 < (splitSegs p).length →
        splitSegs (formatDisplayPath p).1 =
          (splitSegs p).dropLast.take 2 ++ [['.', '.']] ++
            (splitSegs p).dropLast.drop ((splitSegs p).dropLast.length - 2)) := by
  have hpu := pathSep_uniform p huni
  have hjoin : joinSegs (pathSep p) (splitSegs p) = p := joinSegs_splitSegs _ p hpu
  have hne := splitSegs_ne_nil p
  refine ⟨?_, ?_, ?_⟩
  · simp only [formatDisplayPath]
    split
    · rename_i hlen
      rcases hq : splitSegs p with _ | ⟨q, qs⟩
      · exact absurd hq hne
      · rcases qs with _ | ⟨q2, qs2⟩
        · rw [hq] at hjoin
          simp only [joinSegs] at hjoin
          simp [hq, hjoin]
        · rw [hq] at hlen
          simp at hlen
    · split <;> rfl
  · intro h2 h5
    have hlen1 : ¬ (splitSegs p).length ≤ 1 := by omega
    have hlen4 : (splitSegs p).dropLast.length ≤ 4 := by
      rw [List.length_dropLast]
      omega
    have hdne : (splitSegs p).dropLast ≠ [] := by
      have : (splitSegs p).dropLast.length ≥ 1 := by
        rw [List.length_dropLast]
        omega
      intro hnil
      rw [hnil] at this
      simp at this
    simp only [formatDisplayPath]
    rw [if_neg hlen1, if_pos hlen4]
    calc joinSegs (pathSep p) (splitSegs p).dropLast ++
            pathSep p :: (splitSegs p).getLastD []
        = joinSegs (pathSep p) ((splitSegs p).dropLast ++ [(splitSegs p).getLastD []]) := by
          rw [joinSegs_append _ _ _ hdne (by simp), joinSegs_singleton]
      _ = joinSegs (pathSep p) (splitSegs p) := by
          rw [dropLast_append_getLastD _ hne]
      _ = p := hjoin
  · intro h5
    have hlen1 : ¬ (splitSegs p).length ≤ 1 := by omega
    have hlen4 : ¬ (splitSegs p).dropLast.length ≤ 4 := by
      rw [List.length_dropLast]
      omega
    have hdlen : 5 ≤ (splitSegs p).dropLast.length := by
      rw [List.length_dropLast]
      omega
    have htne : (splitSegs p).dropLast.take 2 ≠ [] := by
      have : ((splitSegs p).dropLast.take 2).length = 2 := by
        rw [List.length_take]
        omega
      intro hnil
      rw [hnil] at this
      simp at this
    have hdrne : (splitSegs p).dropLast.drop ((splitSegs p).dropLast.length - 2) ≠ [] := by
      have : ((splitSegs p).dropLast.drop ((splitSegs p).dropLast.length - 2)).length = 2 := by
        rw [List.length_drop]
        omega
      intro hnil
      rw [hnil] at this
      simp at this
    have hfree : ∀ q ∈ (splitSegs p).dropLast.take 2 ++ [['.', '.']] ++
        (splitSegs p).dropLast.drop ((splitSegs p).dropLast.length - 2),
        ∀ c ∈ q, isSepChar c = false := by
      intro q hq
      rcases List.mem_append.mp hq with hq2 | hq2
      · rcases List.mem_append.mp hq2 with hq3 | hq3
        · exact splitSegs_sepFree p q
            (List.dropLast_subset _ (List.take_subset _ _ hq3))
        · intro c hc
          have hq4 : q = ['.', '.'] := List.mem_singleton.mp hq3
          subst hq4
          rcases List.mem_cons.mp hc with rfl | hc2
          · decide
          · rcases List.mem_cons.mp hc2 with rfl | hc3
            · decide
            · simp at hc3
      · exact splitSegs_sepFree p q
          (List.dropLast_subset _ (List.drop_subset _ _ hq2))
    simp only [formatDisplayPath]
    rw [if_neg hlen1, if_neg hlen4]
    have hchars : joinSegs (pathSep p) ((splitSegs p).dropLast.take 2) ++
        pathSep p :: '.' :: '.' :: pathSep p ::
          joinSegs (pathSep p) ((splitSegs p).dropLast.drop ((splitSegs p).dropLast.length - 2)) =
        joinSegs (pathSep p) ((splitSegs p).dropLast.take 2 ++ [['.', '.']] ++
          (splitSegs p).dropLast.drop ((splitSegs p).dropLast.length - 2)) := by
      rw [List.append_assoc, joinSegs_append _ _ _ htne (by simp),
        joinSegs_append _ [['.', '.']] _ (by simp) hdrne]
      rfl
    rw [hchars, splitSegs_joinSegs _ _ (by simp [htne]) (pathSep_isSep p) hfree]

/-- C10 counterexample: for the mixed-separator path `a/b\c` (3 segments,
so the "unchanged" branch applies) joining dir, separator and name does not
reproduce the input; for the separator-free path `file` (1 segment) it does
not either. -/
theorem formatDisplayPath_counterexample :
    (splitSegs ['a', '/', 'b', '\\', 'c']).length = 3
    ∧ (((formatDisplayPath ['a', '/', 'b', '\\', 'c']).1 ++
          pathSep ['a', '/', 'b', '\\', 'c'] :: (formatDisplayPath ['a', '/', 'b', '\\', 'c']).2)
        == ['a', '/', 'b', '\\', 'c']) = false
    ∧ (splitSegs ['f', 'i', 'l', 'e']).length = 1
    ∧ (((formatDisplayPath ['f', 'i', 'l', 'e']).1 ++
          pathSep ['f', 'i', 'l', 'e'] :: (formatDisplayPath ['f', 'i', 'l', 'e']).2)
        == ['f', 'i', 'l', 'e']) = false := by
  refine ⟨by rfl, by rfl, by rfl, by rfl⟩

/-- Witness for C10's amended theorem at the concrete uniform path `a/b/c`:
dir, separator and name rejoin to the input. -/
theorem formatDisplayPath_uniform_witness :
    (formatDisplayPath ['a', '/', 'b', '/', 'c']).1 ++
        pathSep ['a', '/', 'b', '/', 'c'] :: (formatDisplayPath ['a', '/', 'b', '/', 'c']).2 =
      ['a', '/', 'b', '/', 'c'] :=
  (formatDisplayPath_uniform ['a', '/', 'b', '/', 'c'] (Or.inl (by rfl))).2.1
    (by decide) (by decide)

theorem classifyWord_wf (w : List Char) (hne : w ≠ []) (hh : w.head? ≠ some '/')
    (hd : ∀ c ∈ w, isDelim c = false) : tokWF (classifyWord w) := by
  rw [classifyWord]
  cases hk : keywordOf w with
  | some t =>
      cases t with
      | andT => trivial
      | orT => trivial
      | notT => trivial
      | lp => trivial
      | rp => trivial
      | globT p =>
          exfalso
          rw [keywordOf] at hk
          split_ifs at hk <;> simp_all
      | regexT p =>
          exfalso
          rw [keywordOf] at hk
          split_ifs at hk <;> simp_all
  | none =>
      show globTokenOK (String.mk w).data
      exact ⟨hne, hh, hd, hk⟩

theorem emitWord_wf (w : List Char) (hw : wordAccOK w) : ∀ t ∈ emitWord w, tokWF t := by
  intro t ht
  cases w with
  | nil => simp [emitWord] at ht
  | cons c0 w0 =>
      have he : emitWord (c0 :: w0) = [classifyWord (c0 :: w0)] := rfl
      rw [he] at ht
      rw [List.mem_singleton.mp ht]
      rcases hw with h | ⟨hh, hd⟩
      · cases h
      · exact classifyWord_wf _ (by simp) hh hd

theorem tokA_sound : ∀ (cs : List Char) (mode : Option (List Char)) (wacc : List Char)
    (ts : List Tok),
    (∀ racc, mode = some racc → ∀ ch ∈ racc, ch ≠ '/') →
    wordAccOK wacc →
    tokA mode wacc cs = .ok ts → tsWF ts := by
  intro cs
  induction cs with
  | nil =>
      intro mode wacc ts hmode hwacc h
      cases mode with
      | some racc => simp [tokA] at h
      | none =>
          simp only [tokA] at h
          obtain rfl : emitWord wacc = ts := Except.ok.inj h
          exact emitWord_wf wacc hwacc
  | cons c cs ih =>
      intro mode wacc ts hmode hwacc h
      cases mode with
      | some racc =>
          simp only [tokA] at h
          by_cases hc : c = '/'
          · rw [if_pos hc] at h
            cases htok : tokA none [] cs with
            | error e => rw [htok] at h; cases h
            | ok ts2 =>
                rw [htok] at h
                obtain rfl := Except.ok.inj h
                intro t ht
                rcases List.mem_cons.mp ht with rfl | ht2
                · exact fun ch hch => hmode racc rfl ch hch
                · exact ih none [] ts2 (by simp) (Or.inl rfl) htok t ht2
          · rw [if_neg hc] at h
            refine ih (some (racc ++ [c])) [] ts ?_ (Or.inl rfl) h
            intro racc2 hr2 ch hch
            obtain rfl := Option.some.inj hr2
            rcases List.mem_append.mp hch with h3 | h3
            · exact hmode racc rfl ch h3
            · rw [List.mem_singleton.mp h3]
              exact hc
      | none =>
          simp only [tokA] at h
          by_cases h1 : isWsp c = true
          · rw [if_pos h1] at h
            cases htok : tokA none [] cs with
            | error e => rw [htok] at h; cases h
            | ok ts2 =>
                rw [htok] at h
                obtain rfl := Except.ok.inj h
                intro t ht
                rcases List.mem_append.mp ht with h2 | h2
                · exact emitWord_wf wacc hwacc t h2
                · exact ih none [] ts2 (by simp) (Or.inl rfl) htok t h2
          · rw [if_neg h1] at h
            by_cases h2 : c = '('
            · rw [if_pos h2] at h
              cases htok : tokA none [] cs with
              | error e => rw [htok] at h; cases h
              | ok ts2 =>
                  rw [htok] at h
                  obtain rfl := Except.ok.inj h
                  intro t ht
                  rcases List.mem_append.mp ht with h3 | h3
                  · exact emitWord_wf wacc hwacc t h3
                  · rcases List.mem_cons.mp h3 with rfl | h4
                    · trivial
                    · exact ih none [] ts2 (by simp) (Or.inl rfl) htok t h4
            · rw [if_neg h2] at h
              by_cases h3 : c = ')'
              · rw [if_pos h3] at h
                cases htok : tokA none [] cs with
                | error e => rw [htok] at h; cases h
                | ok ts2 =>
                    rw [htok] at h
                    obtain rfl := Except.ok.inj h
                    intro t ht
                    rcases List.mem_append.mp ht with h4 | h4
                    · exact emitWord_wf wacc hwacc t h4
                    · rcases List.mem_cons.mp h4 with rfl | h5
                      · trivial
                      · exact ih none [] ts2 (by simp) (Or.inl rfl) htok t h5
              · rw [if_neg h3] at h
                by_cases h4 : (decide (c = '/') && wacc.isEmpty) = true
                · rw [if_pos h4] at h
                  refine ih (some []) [] ts ?_ (Or.inl rfl) h
                  intro racc2 hr2 ch hch
                  obtain rfl := Option.some.inj hr2
                  simp at hch
                · rw [if_neg h4] at h
                  refine ih none (wacc ++ [c]) ts (by simp) ?_ h
                  have h1b : isWsp c = false := by simpa using h1
                  have hcd : isDelim c = false := by
                    simp [isDelim, h1b, h2, h3]
                  right
                  constructor
                  · cases wacc with
                    | nil =>
                        simp only [List.nil_append, List.head?_cons]
                        intro hcontra
                        apply h4
                        simp [Option.some.inj hcontra]
                    | cons w0 w1 =>
                        rcases hwacc with hnil | ⟨hh, hd⟩
                        · cases hnil
                        · simpa using hh
                  · intro ch hch
                    rcases List.mem_append.mp hch with h5 | h5
                    · rcases hwacc with rfl | ⟨hh, hd⟩
                      · simp at h5
                      · exact hd ch h5
                    · rw [List.mem_singleton.mp h5]
                      exact hcd

theorem tokenize_sound (s : String) (ts : List Tok) (h : tokenize s = .ok ts) : tsWF ts :=
  tokA_sound s.data none [] ts (by simp) (Or.inl rfl) h

theorem tokA_word : ∀ (w wacc rest : List Char),
    (∀ c ∈ w, isDelim c = false) →
    (wacc = [] → w.head? ≠ some '/') →
    tokA none wacc (w ++ rest) = tokA none (wacc ++ w) rest := by
  intro w
  induction w with
  | nil =>
      intro wacc rest _ _
      simp
  | cons c w ih =>
      intro wacc rest hd hh
      have hcd : isDelim c = false := hd c (List.mem_cons_self _ _)
      have hcomp : (isWsp c = false ∧ ¬c = '(') ∧ ¬c = ')' := by
        simpa [isDelim] using hcd
      have h4 : (decide (c = '/') && wacc.isEmpty) = false := by
        cases wacc with
        | nil =>
            have : ¬c = '/' := by
              intro hc
              exact hh rfl (by simp [hc])
            simp [this]
        | cons w0 w1 => simp
      show tokA none wacc (c :: (w ++ rest)) = _
      simp only [tokA]
      rw [if_neg (by simp [hcomp.1.1]), if_neg hcomp.1.2, if_neg hcomp.2,
        if_neg (by simp [h4]),
        ih (wacc ++ [c]) rest (fun c2 h2 => hd c2 (List.mem_cons_of_mem _ h2))
          (by simp)]
      have hl : wacc ++ [c] ++ w = wacc ++ c :: w := by simp
      rw [hl]

theorem tokA_regexBody : ∀ (pbody racc rest : List Char),
    (∀ c ∈ pbody, c ≠ '/') →
    tokA (some racc) [] (pbody ++ '/' :: rest) =
      (match tokA none [] rest with
       | .error e => .error e
       | .ok ts => .ok (.regexT (String.mk (racc ++ pbody)) :: ts)) := by
  intro pbody
  induction pbody with
  | nil =>
      intro racc rest _
      show tokA (some racc) [] ('/' :: rest) = _
      simp only [tokA]
      rw [if_pos trivial]
      simp
  | cons c p ih =>
      intro racc rest h
      have hc : ¬(c = '/') := h c (List.mem_cons_self _ _)
      show tokA (some racc) [] (c :: (p ++ '/' :: rest)) = _
      simp only [tokA]
      rw [if_neg hc, ih (racc ++ [c]) rest (fun c2 h2 => h c2 (List.mem_cons_of_mem _ h2))]
      have hl : racc ++ [c] ++ p = racc ++ c :: p := by simp
      rw [hl]

theorem tokA_skipSpace (cs : List Char) : tokA none [] (' ' :: cs) = tokA none [] cs := by
  simp only [tokA]
  rw [if_pos (show isWsp ' ' = true from rfl)]
  cases h : tokA none [] cs <;> rfl

theorem tokA_lparen (cs : List Char) :
    tokA none [] ('(' :: cs) =
      (match tokA none [] cs with
       | .error e => .error e
       | .ok ts => .ok (.lp :: ts)) := by
  simp only [tokA]
  rw [if_neg (by decide), if_pos trivial]
  cases h : tokA none [] cs <;> rfl

theorem tokA_rparen (cs : List Char) :
    tokA none [] (')' :: cs) =
      (match tokA none [] cs with
       | .error e => .error e
       | .ok ts => .ok (.rp :: ts)) := by
  simp only [tokA]
  rw [if_neg (by decide), if_neg (by decide), if_pos trivial]
  cases h : tokA none [] cs <;> rfl

theorem emitWord_glob (p : String) (hw : globTokenOK p.data) :
    emitWord p.data = [.globT p] := by
  rcases hp : p.data with _ | ⟨c0, w0⟩
  · exact absurd hp hw.1
  · show [classifyWord (c0 :: w0)] = [.globT p]
    rw [classifyWord]
    have hk : keywordOf (c0 :: w0) = none := hp ▸ hw.2.2.2
    rw [hk, ← hp]

theorem renderTok_last (t : Tok) (hw : tokWF t) : tokA none [] (renderTok t) = .ok [t] := by
  cases t with
  | lp =>
      rw [show renderTok .lp = '(' :: ([] : List Char) from rfl, tokA_lparen]
      rfl
  | rp =>
      rw [show renderTok .rp = ')' :: ([] : List Char) from rfl, tokA_rparen]
      rfl
  | andT =>
      rw [show renderTok .andT = ['A', 'N', 'D'] ++ ([] : List Char) from rfl,
        tokA_word _ _ _ (by decide) (by decide)]
      rfl
  | orT =>
      rw [show renderTok .orT = ['O', 'R'] ++ ([] : List Char) from rfl,
        tokA_word _ _ _ (by decide) (by decide)]
      rfl
  | notT =>
      rw [show renderTok .notT = ['N', 'O', 'T'] ++ ([] : List Char) from rfl,
        tokA_word _ _ _ (by decide) (by decide)]
      rfl
  | globT p =>
      rw [show renderTok (.globT p) = p.data ++ ([] : List Char) from by simp [renderTok],
        tokA_word _ _ _ hw.2.2.1 (fun _ => hw.2.1)]
      show Except.ok (emitWord ([] ++ p.data)) = _
      rw [List.nil_append, emitWord_glob p hw]
  | regexT p =>
      show tokA none [] ('/' :: (p.data ++ ['/'])) = _
      simp only [tokA]
      rw [if_neg (by decide), if_neg (by decide), if_neg (by decide),
        if_pos (by decide), tokA_regexBody _ _ _ hw]
      rfl

theorem renderTok_sep (t : Tok) (hw : tokWF t) (rrest : List Char) :
    tokA none [] (renderTok t ++ ' ' :: rrest) =
      (match tokA none [] rrest with
       | .error e => .error e
       | .ok ts => .ok (t :: ts)) := by
  cases t with
  | lp =>
      rw [show renderTok .lp ++ ' ' :: rrest = '(' :: ' ' :: rrest from rfl, tokA_lparen,
        tokA_skipSpace]
  | rp =>
      rw [show renderTok .rp ++ ' ' :: rrest = ')' :: ' ' :: rrest from rfl, tokA_rparen,
        tokA_skipSpace]
  | andT =>
      rw [show renderTok .andT ++ ' ' :: rrest = ['A', 'N', 'D'] ++ (' ' :: rrest) from rfl,
        tokA_word _ _ _ (by decide) (by decide)]
      show tokA none ['A', 'N', 'D'] (' ' :: rrest) = _
      simp only [tokA]
      rw [if_pos (show isWsp ' ' = true from rfl)]
      cases h : tokA none [] rrest <;> rfl
  | orT =>
      rw [show renderTok .orT ++ ' ' :: rrest = ['O', 'R'] ++ (' ' :: rrest) from rfl,
        tokA_word _ _ _ (by decide) (by decide)]
      show tokA none ['O', 'R'] (' ' :: rrest) = _
      simp only [tokA]
      rw [if_pos (show isWsp ' ' = true from rfl)]
      cases h : tokA none [] rrest <;> rfl
  | notT =>
      rw [show renderTok .notT ++ ' ' :: rrest = ['N', 'O', 'T'] ++ (' ' :: rrest) from rfl,
        tokA_word _ _ _ (by decide) (by decide)]
      show tokA none ['N', 'O', 'T'] (' ' :: rrest) = _
      simp only [tokA]
      rw [if_pos (show isWsp ' ' = true from rfl)]
      cases h : tokA none [] rrest <;> rfl
  | globT p =>
      rw [show renderTok (.globT p) ++ ' ' :: rrest = p.data ++ (' ' :: rrest) from by
          simp [renderTok],
        tokA_word _ _ _ hw.2.2.1 (fun _ => hw.2.1)]
      show tokA none ([] ++ p.data) (' ' :: rrest) = _
      rw [List.nil_append]
      cases hp : p.data with
      | nil => exact absurd hp hw.1
      | cons c0 w0 =>
          simp only [tokA]
          rw [if_pos (show isWsp ' ' = true from rfl)]
          have hemit : emitWord (c0 :: w0) = [.globT p] := hp ▸ emitWord_glob p hw
          cases h : tokA none [] rrest with
          | error e => rfl
          | ok ts =>
              rw [hemit]
              rfl
  | regexT p =>
      have hre : renderTok (.regexT p) ++ ' ' :: rrest =
          '/' :: (p.data ++ '/' :: ' ' :: rrest) := by
        simp [renderTok]
      rw [hre]
      simp only [tokA]
      rw [if_neg (by decide), if_neg (by decide), if_neg (by decide),
        if_pos (by decide), tokA_regexBody _ _ _ hw, tokA_skipSpace]
      cases h : tokA none [] rrest with
      | error e => rfl
      | ok ts => simp

theorem tokenize_render (ts : List Tok) (h : tsWF ts) :
    tokA none [] (renderToks ts) = .ok ts := by
  induction ts with
  | nil => rfl
  | cons t ts ih =>
      cases ts with
      | nil => exact renderTok_last t (h t (List.mem_cons_self _ _))
      | cons t2 ts2 =>
          rw [renderToks, renderTok_sep t (h t (List.mem_cons_self _ _)),
            ih (fun t3 h3 => h t3 (List.mem_cons_of_mem _ h3))]

theorem mkAnd_WF (cs : List Condition) (hne : cs ≠ []) (hwf : ∀ c ∈ cs, WF c) :
    WF (mkAnd cs) := by
  cases cs with
  | nil => exact absurd rfl hne
  | cons c cs2 =>
      cases cs2 with
      | nil => exact hwf c (List.mem_cons_self _ _)
      | cons c2 cs3 => exact WF.and _ (by simp) hwf

theorem mkOr_WF (cs : List Condition) (hne : cs ≠ []) (hwf : ∀ c ∈ cs, WF c) :
    WF (mkOr cs) := by
  cases cs with
  | nil => exact absurd rfl hne
  | cons c cs2 =>
      cases cs2 with
      | nil => exact hwf c (List.mem_cons_self _ _)
      | cons c2 cs3 => exact WF.or _ (by simp) hwf

theorem parsers_sound : ∀ f : Nat,
    (∀ ts c rest, tsWF ts → parseNot f ts = .ok (c, rest) → WF c ∧ tsWF rest)
    ∧ (∀ ts cs rest, tsWF ts → parseAndOps f ts = .ok (cs, rest) →
        cs ≠ [] ∧ (∀ c ∈ cs, WF c) ∧ tsWF rest)
    ∧ (∀ ts c rest, tsWF ts → parseAnd f ts = .ok (c, rest) → WF c ∧ tsWF rest)
    ∧ (∀ ts cs rest, tsWF ts → parseOrOps f ts = .ok (cs, rest) →
        cs ≠ [] ∧ (∀ c ∈ cs, WF c) ∧ tsWF rest)
    ∧ (∀ ts c rest, tsWF ts → parseOr f ts = .ok (c, rest) → WF c ∧ tsWF rest) := by
  intro f
  induction f with
  | zero =>
      refine ⟨?_, ?_, ?_, ?_, ?_⟩ <;> intro ts x rest hts h <;>
        simp [parseNot, parseAndOps, parseAnd, parseOrOps, parseOr] at h
  | succ f ih =>
      obtain ⟨ihNot, ihAndOps, ihAnd, ihOrOps, ihOr⟩ := ih
      refine ⟨?_, ?_, ?_, ?_, ?_⟩
      · intro ts c rest hts h
        cases ts with
        | nil => simp [parseNot] at h
        | cons t ts2 =>
            have htl : tsWF ts2 := fun t2 h2 => hts t2 (List.mem_cons_of_mem _ h2)
            cases t with
            | notT =>
                rw [parseNot] at h
                cases hsub : parseNot f ts2 with
                | error e => simp only [hsub] at h; simp at h
                | ok pr =>
                    obtain ⟨c2, rest2⟩ := pr
                    simp only [hsub] at h
                    injection h with h2
                    injection h2 with ha hb
                    subst ha
                    subst hb
                    have hres := ihNot ts2 c2 rest2 htl hsub
                    exact ⟨WF.not _ hres.1, hres.2⟩
            | globT p =>
                rw [parseNot] at h
                injection h with h2
                injection h2 with ha hb
                subst ha
                subst hb
                refine ⟨?_, htl⟩
                by_cases hp : p = "*"
                · rw [if_pos hp]
                  exact WF.always
                · rw [if_neg hp]
                  exact WF.glob p (hts (.globT p) (List.mem_cons_self _ _)) hp
            | regexT p =>
                rw [parseNot] at h
                injection h with h2
                injection h2 with ha hb
                subst ha
                subst hb
                exact ⟨WF.regex p (hts (.regexT p) (List.mem_cons_self _ _)), htl⟩
            | lp =>
                rw [parseNot] at h
                cases hsub : parseOr f ts2 with
                | error e => simp only [hsub] at h; simp at h
                | ok pr =>
                    obtain ⟨c2, rest2⟩ := pr
                    simp only [hsub] at h
                    have hres := ihOr ts2 c2 rest2 htl hsub
                    cases rest2 with
                    | nil => simp at h
                    | cons r rest3 =>
                        have htl3 : tsWF rest3 :=
                          fun t2 h2 => hres.2 t2 (List.mem_cons_of_mem _ h2)
                        cases r with
                        | rp =>
                            injection h with h2
                            injection h2 with ha hb
                            subst ha
                            subst hb
                            exact ⟨hres.1, htl3⟩
                        | lp => simp at h
                        | andT => simp at h
                        | orT => simp at h
                        | notT => simp at h
                        | globT p => simp at h
                        | regexT p => simp at h
            | rp => simp [parseNot] at h
            | andT => simp [parseNot] at h
            | orT => simp [parseNot] at h
      · intro ts cs rest hts h
        rw [parseAndOps] at h
        cases hsub : parseNot f ts with
        | error e => simp only [hsub] at h; simp at h
        | ok pr =>
            obtain ⟨c2, rest2⟩ := pr
            simp only [hsub] at h
            have hn := ihNot ts c2 rest2 hts hsub
            cases rest2 with
            | nil =>
                injection h with h2
                injection h2 with ha hb
                subst ha
                subst hb
                exact ⟨by simp, fun c hc => by rw [List.mem_singleton.mp hc]; exact hn.1,
                  hn.2⟩
            | cons r rest3 =>
                have htl3 : tsWF rest3 := fun t2 h2 => hn.2 t2 (List.mem_cons_of_mem _ h2)
                cases r with
                | andT =>
                    cases hsub2 : parseAndOps f rest3 with
                    | error e => simp only [hsub2] at h; simp at h
                    | ok pr2 =>
                        obtain ⟨cs2, rest4⟩ := pr2
                        simp only [hsub2] at h
                        injection h with h2
                        injection h2 with ha hb
                        subst ha
                        subst hb
                        have hrec := ihAndOps rest3 cs2 rest4 htl3 hsub2
                        refine ⟨by simp, ?_, hrec.2.2⟩
                        intro c hc
                        rcases List.mem_cons.mp hc with rfl | hc2
                        · exact hn.1
                        · exact hrec.2.1 c hc2
                | lp =>
                    injection h with h2
                    injection h2 with ha hb
                    subst ha
                    subst hb
                    exact ⟨by simp, fun c hc => by rw [List.mem_singleton.mp hc]; exact hn.1,
                      hn.2⟩
                | rp =>
                    injection h with h2
                    injection h2 with ha hb
                    subst ha
                    subst hb
                    exact ⟨by simp, fun c hc => by rw [List.mem_singleton.mp hc]; exact hn.1,
                      hn.2⟩
                | orT =>
                    injection h with h2
                    injection h2 with ha hb
                    subst ha
                    subst hb
                    exact ⟨by simp, fun c hc => by rw [List.mem_singleton.mp hc]; exact hn.1,
                      hn.2⟩
                | notT =>
                    injection h with h2
                    injection h2 with ha hb
                    subst ha
                    subst hb
                    exact ⟨by simp, fun c hc => by rw [List.mem_singleton.mp hc]; exact hn.1,
                      hn.2⟩
                | globT p =>
                    injection h with h2
                    injection h2 with ha hb
                    subst ha
                    subst hb
                    exact ⟨by simp, fun c hc => by rw [List.mem_singleton.mp hc]; exact hn.1,
                      hn.2⟩
                | regexT p =>
                    injection h with h2
                    injection h2 with ha hb
                    subst ha
                    subst hb
                    exact ⟨by simp, fun c hc => by rw [List.mem_singleton.mp hc]; exact hn.1,
                      hn.2⟩
      · intro ts c rest hts h
        rw [parseAnd] at h
        cases hsub : parseAndOps f ts with
        | error e => simp only [hsub] at h; simp at h
        | ok pr =>
            obtain ⟨cs2, rest2⟩ := pr
            simp only [hsub] at h
            injection h with h2
            injection h2 with ha hb
            subst ha
            subst hb
            have hres := ihAndOps ts cs2 rest2 hts hsub
            exact ⟨mkAnd_WF cs2 hres.1 hres.2.1, hres.2.2⟩
      · intro ts cs rest hts h
        rw [parseOrOps] at h
        cases hsub : parseAnd f ts with
        | error e => simp only [hsub] at h; simp at h
        | ok pr =>
            obtain ⟨c2, rest2⟩ := pr
            simp only [hsub] at h
            have hn := ihAnd ts c2 rest2 hts hsub
            cases rest2 with
            | nil =>
                injection h with h2
                injection h2 with ha hb
                subst ha
                subst hb
                exact ⟨by simp, fun c hc => by rw [List.mem_singleton.mp hc]; exact hn.1,
                  hn.2⟩
            | cons r rest3 =>
                have htl3 : tsWF rest3 := fun t2 h2 => hn.2 t2 (List.mem_cons_of_mem _ h2)
                cases r with
                | orT =>
                    cases hsub2 : parseOrOps f rest3 with
                    | error e => simp only [hsub2] at h; simp at h
                    | ok pr2 =>
                        obtain ⟨cs2, rest4⟩ := pr2
                        simp only [hsub2] at h
                        injection h with h2
                        injection h2 with ha hb
                        subst ha
                        subst hb
                        have hrec := ihOrOps rest3 cs2 rest4 htl3 hsub2
                        refine ⟨by simp, ?_, hrec.2.2⟩
                        intro c hc
                        rcases List.mem_cons.mp hc with rfl | hc2
                        · exact hn.1
                        · exact hrec.2.1 c hc2
                | lp =>
                    injection h with h2
                    injection h2 with ha hb
                    subst ha
                    subst hb
                    exact ⟨by simp, fun c hc => by rw [List.mem_singleton.mp hc]; exact hn.1,
                      hn.2⟩
                | rp =>
                    injection h with h2
                    injection h2 with ha hb
                    subst ha
                    subst hb
                    exact ⟨by simp, fun c hc => by rw [List.mem_singleton.mp hc]; exact hn.1,
                      hn.2⟩
                | andT =>
                    injection h with h2
                    injection h2 with ha hb
                    subst ha
                    subst hb
                    exact ⟨by simp, fun c hc => by rw [List.mem_singleton.mp hc]; exact hn.1,
                      hn.2⟩
                | notT =>
                    injection h with h2
                    injection h2 with ha hb
                    subst ha
                    subst hb
                    exact ⟨by simp, fun c hc => by rw [List.mem_singleton.mp hc]; exact hn.1,
                      hn.2⟩
                | globT p =>
                    injection h with h2
                    injection h2 with ha hb
                    subst ha
                    subst hb
                    exact ⟨by simp, fun c hc => by rw [List.mem_singleton.mp hc]; exact hn.1,
                      hn.2⟩
                | regexT p =>
                    injection h with h2
                    injection h2 with ha hb
                    subst ha
                    subst hb
                    exact ⟨by simp, fun c hc => by rw [List.mem_singleton.mp hc]; exact hn.1,
                      hn.2⟩
      · intro ts c rest hts h
        rw [parseOr] at h
        cases hsub : parseOrOps f ts with
        | error e => simp only [hsub] at h; simp at h
        | ok pr =>
            obtain ⟨cs2, rest2⟩ := pr
            simp only [hsub] at h
            injection h with h2
            injection h2 with ha hb
            subst ha
            subst hb
            have hres := ihOrOps ts cs2 rest2 hts hsub
            exact ⟨mkOr_WF cs2 hres.1 hres.2.1, hres.2.2⟩

theorem parseAndOps_single (X : List Tok) (c : Condition)
    (hX : ∀ f rest, 6 * X.length ≤ f → parseNot f (X ++ rest) = .ok (c, rest)) :
    ∀ f rest, 6 * X.length + 1 ≤ f → rest.head? ≠ some .andT →
    parseAndOps f (X ++ rest) = .ok ([c], rest) := by
  intro f rest hf hhead
  obtain ⟨f1, rfl⟩ : ∃ f1, f = f1 + 1 := ⟨f - 1, by omega⟩
  rw [parseAndOps, hX f1 rest (by omega)]
  cases rest with
  | nil => rfl
  | cons r rest2 =>
      cases r with
      | andT => exact absurd rfl hhead
      | lp => rfl
      | rp => rfl
      | orT => rfl
      | notT => rfl
      | globT p => rfl
      | regexT p => rfl

theorem parseAnd_single (X : List Tok) (c : Condition)
    (hX : ∀ f rest, 6 * X.length ≤ f → parseNot f (X ++ rest) = .ok (c, rest)) :
    ∀ f rest, 6 * X.length + 2 ≤ f → rest.head? ≠ some .andT →
    parseAnd f (X ++ rest) = .ok (c, rest) := by
  intro f rest hf hhead
  obtain ⟨f1, rfl⟩ : ∃ f1, f = f1 + 1 := ⟨f - 1, by omega⟩
  rw [parseAnd, parseAndOps_single X c hX f1 rest (by omega) hhead]
  rfl

theorem parseOrOps_single (X : List Tok) (c : Condition)
    (hX : ∀ f rest, 6 * X.length + 2 ≤ f → rest.head? ≠ some .andT →
      parseAnd f (X ++ rest) = .ok (c, rest)) :
    ∀ f rest, 6 * X.length + 3 ≤ f → rest.head? ≠ some .andT → rest.head? ≠ some .orT →
    parseOrOps f (X ++ rest) = .ok ([c], rest) := by
  intro f rest hf hhead1 hhead2
  obtain ⟨f1, rfl⟩ : ∃ f1, f = f1 + 1 := ⟨f - 1, by omega⟩
  rw [parseOrOps, hX f1 rest (by omega) hhead1]
  cases rest with
  | nil => rfl
  | cons r rest2 =>
      cases r with
      | orT => exact absurd rfl hhead2
      | lp => rfl
      | rp => rfl
      | andT => rfl
      | notT => rfl
      | globT p => rfl
      | regexT p => rfl

theorem parseOr_single (X : List Tok) (c : Condition)
    (hX : ∀ f rest, 6 * X.length + 2 ≤ f → rest.head? ≠ some .andT →
      parseAnd f (X ++ rest) = .ok (c, rest)) :
    ∀ f rest, 6 * X.length + 4 ≤ f → rest.head? ≠ some .andT → rest.head? ≠ some .orT →
    parseOr f (X ++ rest) = .ok (c, rest) := by
  intro f rest hf hhead1 hhead2
  obtain ⟨f1, rfl⟩ : ∃ f1, f = f1 + 1 := ⟨f - 1, by omega⟩
  rw [parseOr, parseOrOps_single X c hX f1 rest (by omega) hhead1 hhead2]
  rfl

theorem parseAndOps_toksList : ∀ (cs : List Condition), cs ≠ [] →
    (∀ c ∈ cs, ∀ f rest, 6 * (toksNot c).length ≤ f →
      parseNot f (toksNot c ++ rest) = .ok (c, rest)) →
    ∀ f rest, 6 * (toksAndList cs).length + 1 ≤ f → rest.head? ≠ some .andT →
    parseAndOps f (toksAndList cs ++ rest) = .ok (cs, rest) := by
  intro cs
  induction cs with
  | nil => intro h; exact absurd rfl h
  | cons c cs2 ih =>
      intro _ helem f rest hf hhead
      cases cs2 with
      | nil =>
          exact parseAndOps_single (toksNot c) c (helem c (List.mem_cons_self _ _))
            f rest hf hhead
      | cons c2 cs3 =>
          obtain ⟨f1, rfl⟩ : ∃ f1, f = f1 + 1 := ⟨f - 1, by omega⟩
          have hlen : (toksAndList (c :: c2 :: cs3)).length =
              (toksNot c).length + 1 + (toksAndList (c2 :: cs3)).length := by
            simp [toksAndList]
            omega
          have harr : toksAndList (c :: c2 :: cs3) ++ rest =
              toksNot c ++ (.andT :: (toksAndList (c2 :: cs3) ++ rest)) := by
            simp [toksAndList]
          have hstep := helem c (List.mem_cons_self _ _) f1
            (.andT :: (toksAndList (c2 :: cs3) ++ rest)) (by omega)
          have hrec := ih (by simp)
            (fun c3 h3 => helem c3 (List.mem_cons_of_mem _ h3)) f1 rest (by omega) hhead
          rw [harr, parseAndOps]
          simp only [hstep, hrec]

theorem parseOrOps_toksList : ∀ (cs : List Condition), cs ≠ [] →
    (∀ c ∈ cs, ∀ f rest, 6 * (toksAnd c).length + 2 ≤ f → rest.head? ≠ some .andT →
      parseAnd f (toksAnd c ++ rest) = .ok (c, rest)) →
    ∀ f rest, 6 * (toksOrList cs).length + 3 ≤ f → rest.head? ≠ some .andT →
    rest.head? ≠ some .orT →
    parseOrOps f (toksOrList cs ++ rest) = .ok (cs, rest) := by
  intro cs
  induction cs with
  | nil => intro h; exact absurd rfl h
  | cons c cs2 ih =>
      intro _ helem f rest hf hhead1 hhead2
      cases cs2 with
      | nil =>
          exact parseOrOps_single (toksAnd c) c (helem c (List.mem_cons_self _ _))
            f rest hf hhead1 hhead2
      | cons c2 cs3 =>
          obtain ⟨f1, rfl⟩ : ∃ f1, f = f1 + 1 := ⟨f - 1, by omega⟩
          have hlen : (toksOrList (c :: c2 :: cs3)).length =
              (toksAnd c).length + 1 + (toksOrList (c2 :: cs3)).length := by
            simp [toksOrList]
            omega
          have harr : toksOrList (c :: c2 :: cs3) ++ rest =
              toksAnd c ++ (.orT :: (toksOrList (c2 :: cs3) ++ rest)) := by
            simp [toksOrList]
          have hstep := helem c (List.mem_cons_self _ _) f1
            (.orT :: (toksOrList (c2 :: cs3) ++ rest)) (by omega) (by simp)
          have hrec := ih (by simp)
            (fun c3 h3 => helem c3 (List.mem_cons_of_mem _ h3)) f1 rest (by omega)
            hhead1 hhead2
          rw [harr, parseOrOps]
          simp only [hstep, hrec]

theorem toks_parse : ∀ c : Condition, WF c →
    (∀ f rest, 6 * (toksNot c).length ≤ f →
      parseNot f (toksNot c ++ rest) = .ok (c, rest))
    ∧ (∀ f rest, 6 * (toksAnd c).length + 2 ≤ f → rest.head? ≠ some .andT →
      parseAnd f (toksAnd c ++ rest) = .ok (c, rest))
    ∧ (∀ f rest, 6 * (toksOr c).length + 4 ≤ f → rest.head? ≠ some .andT →
      rest.head? ≠ some .orT → parseOr f (toksOr c ++ rest) = .ok (c, rest)) := by
  intro c hwf
  induction hwf with
  | glob p hok hne =>
      have hnot : ∀ f rest, 6 * (toksNot (.Glob p)).length ≤ f →
          parseNot f (toksNot (.Glob p) ++ rest) = .ok (.Glob p, rest) := by
        intro f rest hf
        obtain ⟨f1, rfl⟩ : ∃ f1, f = f1 + 1 := ⟨f - 1, by
          have : (toksNot (.Glob p)).length = 1 := rfl
          omega⟩
        show parseNot (f1 + 1) (.globT p :: rest) = _
        rw [parseNot, if_neg hne]
      exact ⟨hnot, parseAnd_single _ _ hnot, parseOr_single _ _ (parseAnd_single _ _ hnot)⟩
  | regex p hok =>
      have hnot : ∀ f rest, 6 * (toksNot (.Regex p)).length ≤ f →
          parseNot f (toksNot (.Regex p) ++ rest) = .ok (.Regex p, rest) := by
        intro f rest hf
        obtain ⟨f1, rfl⟩ : ∃ f1, f = f1 + 1 := ⟨f - 1, by
          have : (toksNot (.Regex p)).length = 1 := rfl
          omega⟩
        show parseNot (f1 + 1) (.regexT p :: rest) = _
        rw [parseNot]
      exact ⟨hnot, parseAnd_single _ _ hnot, parseOr_single _ _ (parseAnd_single _ _ hnot)⟩
  | always =>
      have hnot : ∀ f rest, 6 * (toksNot .Always).length ≤ f →
          parseNot f (toksNot .Always ++ rest) = .ok (.Always, rest) := by
        intro f rest hf
        obtain ⟨f1, rfl⟩ : ∃ f1, f = f1 + 1 := ⟨f - 1, by
          have : (toksNot .Always).length = 1 := rfl
          omega⟩
        show parseNot (f1 + 1) (.globT "*" :: rest) = _
        rw [parseNot, if_pos rfl]
      exact ⟨hnot, parseAnd_single _ _ hnot, parseOr_single _ _ (parseAnd_single _ _ hnot)⟩
  | not c hc ihc =>
      obtain ⟨ihNot, ihAnd2, ihOr2⟩ := ihc
      have hnot : ∀ f rest, 6 * (toksNot (.Not c)).length ≤ f →
          parseNot f (toksNot (.Not c) ++ rest) = .ok (.Not c, rest) := by
        intro f rest hf
        have hlen : (toksNot (.Not c)).length = (toksNot c).length + 1 := by
          simp [toksNot]
        obtain ⟨f1, rfl⟩ : ∃ f1, f = f1 + 1 := ⟨f - 1, by omega⟩
        show parseNot (f1 + 1) (.notT :: (toksNot c ++ rest)) = _
        rw [parseNot]
        simp only [ihNot f1 rest (by omega)]
      exact ⟨hnot, parseAnd_single _ _ hnot, parseOr_single _ _ (parseAnd_single _ _ hnot)⟩
  | and cs hlen2 hwfall ih =>
      have helems : ∀ c2 ∈ cs, ∀ f rest, 6 * (toksNot c2).length ≤ f →
          parseNot f (toksNot c2 ++ rest) = .ok (c2, rest) := fun c2 h2 => (ih c2 h2).1
      have hcne : cs ≠ [] := by
        intro h
        rw [h] at hlen2
        simp at hlen2
      have hmk : mkAnd cs = .And cs := by
        cases cs with
        | nil => simp at hlen2
        | cons a t =>
            cases t with
            | nil => simp at hlen2
            | cons b t2 => rfl
      have hops := parseAndOps_toksList cs hcne helems
      have hand : ∀ f rest, 6 * (toksAnd (.And cs)).length + 2 ≤ f →
          rest.head? ≠ some .andT →
          parseAnd f (toksAnd (.And cs) ++ rest) = .ok (.And cs, rest) := by
        intro f rest hf hhead
        obtain ⟨f1, rfl⟩ : ∃ f1, f = f1 + 1 := ⟨f - 1, by omega⟩
        show parseAnd (f1 + 1) (toksAndList cs ++ rest) = _
        rw [parseAnd]
        have hl : (toksAnd (.And cs)).length = (toksAndList cs).length := rfl
        simp only [hops f1 rest (by omega) hhead, hmk]
      have hor : ∀ f rest, 6 * (toksOr (.And cs)).length + 4 ≤ f →
          rest.head? ≠ some .andT → rest.head? ≠ some .orT →
          parseOr f (toksOr (.And cs) ++ rest) = .ok (.And cs, rest) :=
        parseOr_single (toksAndList cs) (.And cs) hand
      have hnot : ∀ f rest, 6 * (toksNot (.And cs)).length ≤ f →
          parseNot f (toksNot (.And cs) ++ rest) = .ok (.And cs, rest) := by
        intro f rest hf
        have hlen : (toksNot (.And cs)).length = (toksAndList cs).length + 2 := by
          simp [toksNot]
        have hl2 : (toksOr (.And cs)).length = (toksAndList cs).length := rfl
        obtain ⟨f1, rfl⟩ : ∃ f1, f = f1 + 1 := ⟨f - 1, by omega⟩
        have harr : toksNot (.And cs) ++ rest =
            .lp :: (toksAndList cs ++ (.rp :: rest)) := by
          simp [toksNot]
        rw [harr, parseNot]
        have hor2 : parseOr f1 (toksAndList cs ++ (.rp :: rest)) =
            .ok (.And cs, .rp :: rest) :=
          hor f1 (.rp :: rest) (by omega) (by simp) (by simp)
        simp only [hor2]
      exact ⟨hnot, hand, hor⟩
  | or cs hlen2 hwfall ih =>
      have helems : ∀ c2 ∈ cs, ∀ f rest, 6 * (toksAnd c2).length + 2 ≤ f →
          rest.head? ≠ some .andT → parseAnd f (toksAnd c2 ++ rest) = .ok (c2, rest) :=
        fun c2 h2 => (ih c2 h2).2.1
      have hcne : cs ≠ [] := by
        intro h
        rw [h] at hlen2
        simp at hlen2
      have hmk : mkOr cs = .Or cs := by
        cases cs with
        | nil => simp at hlen2
        | cons a t =>
            cases t with
            | nil => simp at hlen2
            | cons b t2 => rfl
      have hops := parseOrOps_toksList cs hcne helems
      have hor : ∀ f rest, 6 * (toksOr (.Or cs)).length + 4 ≤ f →
          rest.head? ≠ some .andT → rest.head? ≠ some .orT →
          parseOr f (toksOr (.Or cs) ++ rest) = .ok (.Or cs, rest) := by
        intro f rest hf hhead1 hhead2
        obtain ⟨f1, rfl⟩ : ∃ f1, f = f1 + 1 := ⟨f - 1, by omega⟩
        show parseOr (f1 + 1) (toksOrList cs ++ rest) = _
        rw [parseOr]
        have hl : (toksOr (.Or cs)).length = (toksOrList cs).length := rfl
        simp only [hops f1 rest (by omega) hhead1 hhead2, hmk]
      have hnot : ∀ f rest, 6 * (toksNot (.Or cs)).length ≤ f →
          parseNot f (toksNot (.Or cs) ++ rest) = .ok (.Or cs, rest) := by
        intro f rest hf
        have hlen : (toksNot (.Or cs)).length = (toksOrList cs).length + 2 := by
          simp [toksNot]
        have hl2 : (toksOr (.Or cs)).length = (toksOrList cs).length := rfl
        obtain ⟨f1, rfl⟩ : ∃ f1, f = f1 + 1 := ⟨f - 1, by omega⟩
        have harr : toksNot (.Or cs) ++ rest =
            .lp :: (toksOrList cs ++ (.rp :: rest)) := by
          simp [toksNot]
        rw [harr, parseNot]
        have hor2 : parseOr f1 (toksOrList cs ++ (.rp :: rest)) =
            .ok (.Or cs, .rp :: rest) :=
          hor f1 (.rp :: rest) (by omega) (by simp) (by simp)
        simp only [hor2]
      have hand : ∀ f rest, 6 * (toksAnd (.Or cs)).length + 2 ≤ f →
          rest.head? ≠ some .andT →
          parseAnd f (toksAnd (.Or cs) ++ rest) = .ok (.Or cs, rest) :=
        parseAnd_single (toksNot (.Or cs)) (.Or cs) hnot
      exact ⟨hnot, hand, hor⟩

theorem toksAndList_tokWF : ∀ cs : List Condition,
    (∀ c ∈ cs, tsWF (toksNot c)) → tsWF (toksAndList cs) := by
  intro cs
  induction cs with
  | nil => intro _ t ht; simp [toksAndList] at ht
  | cons c cs2 ih =>
      intro hall
      cases cs2 with
      | nil => exact hall c (List.mem_cons_self _ _)
      | cons c2 cs3 =>
          intro t ht
          have ht2 : t ∈ toksNot c ++ .andT :: toksAndList (c2 :: cs3) := ht
          rcases List.mem_append.mp ht2 with h1 | h1
          · exact hall c (List.mem_cons_self _ _) t h1
          · rcases List.mem_cons.mp h1 with rfl | h2
            · trivial
            · exact ih (fun c3 h3 => hall c3 (List.mem_cons_of_mem _ h3)) t h2

theorem toksOrList_tokWF : ∀ cs : List Condition,
    (∀ c ∈ cs, tsWF (toksAnd c)) → tsWF (toksOrList cs) := by
  intro cs
  induction cs with
  | nil => intro _ t ht; simp [toksOrList] at ht
  | cons c cs2 ih =>
      intro hall
      cases cs2 with
      | nil => exact hall c (List.mem_cons_self _ _)
      | cons c2 cs3 =>
          intro t ht
          have ht2 : t ∈ toksAnd c ++ .orT :: toksOrList (c2 :: cs3) := ht
          rcases List.mem_append.mp ht2 with h1 | h1
          · exact hall c (List.mem_cons_self _ _) t h1
          · rcases List.mem_cons.mp h1 with rfl | h2
            · trivial
            · exact ih (fun c3 h3 => hall c3 (List.mem_cons_of_mem _ h3)) t h2

theorem toks_tokWF : ∀ c : Condition, WF c →
    tsWF (toksNot c) ∧ tsWF (toksAnd c) ∧ tsWF (toksOr c) := by
  intro c hwf
  induction hwf with
  | glob p hok hne =>
      have h1 : tsWF [Tok.globT p] := by
        intro t ht
        rw [List.mem_singleton.mp ht]
        exact hok
      exact ⟨h1, h1, h1⟩
  | regex p hok =>
      have h1 : tsWF [Tok.regexT p] := by
        intro t ht
        rw [List.mem_singleton.mp ht]
        exact hok
      exact ⟨h1, h1, h1⟩
  | always =>
      have h1 : tsWF [Tok.globT "*"] := by
        intro t ht
        rw [List.mem_singleton.mp ht]
        show globTokenOK ("*" : String).data
        refine ⟨by decide, by decide, by decide, by decide⟩
      exact ⟨h1, h1, h1⟩
  | not c hc ihc =>
      have h1 : tsWF (.notT :: toksNot c) := by
        intro t ht
        rcases List.mem_cons.mp ht with rfl | h2
        · trivial
        · exact ihc.1 t h2
      exact ⟨h1, h1, h1⟩
  | and cs hlen2 hwfall ih =>
      have hlist : tsWF (toksAndList cs) := toksAndList_tokWF cs (fun c2 h2 => (ih c2 h2).1)
      have hparen : tsWF (.lp :: toksAndList cs ++ [.rp]) := by
        intro t ht
        rcases List.mem_cons.mp ht with rfl | h2
        · trivial
        · rcases List.mem_append.mp h2 with h3 | h3
          · exact hlist t h3
          · rw [List.mem_singleton.mp h3]
            trivial
      exact ⟨hparen, hlist, hlist⟩
  | or cs hlen2 hwfall ih =>
      have hlist : tsWF (toksOrList cs) := toksOrList_tokWF cs (fun c2 h2 => (ih c2 h2).2.1)
      have hparen : tsWF (.lp :: toksOrList cs ++ [.rp]) := by
        intro t ht
        rcases List.mem_cons.mp ht with rfl | h2
        · trivial
        · rcases List.mem_append.mp h2 with h3 | h3
          · exact hlist t h3
          · rw [List.mem_singleton.mp h3]
            trivial
      exact ⟨hparen, hparen, hlist⟩

theorem toksOr_ne_nil (c : Condition) (hwf : WF c) : toksOr c ≠ [] := by
  cases hwf with
  | glob p hok hne => simp [toksOr]
  | regex p hok => simp [toksOr]
  | always => simp [toksOr]
  | not c2 hc => simp [toksOr]
  | and cs hlen2 hwfall =>
      cases cs with
      | nil => simp at hlen2
      | cons a t =>
          cases t with
          | nil => simp at hlen2
          | cons b t2 =>
              show toksAndList (a :: b :: t2) ≠ []
              simp [toksAndList]
  | or cs hlen2 hwfall =>
      cases cs with
      | nil => simp at hlen2
      | cons a t =>
          cases t with
          | nil => simp at hlen2
          | cons b t2 =>
              show toksOrList (a :: b :: t2) ≠ []
              simp [toksOrList]

theorem parse_sound (t : String) (c : Condition) (h : parse t = .ok c) : WF c := by
  rw [parse] at h
  cases htok : tokenize t with
  | error e => rw [htok] at h; simp at h
  | ok ts =>
      have hts : tsWF ts := tokenize_sound t ts htok
      rw [htok] at h
      cases ts with
      | nil =>
          injection h with h2
          rw [← h2]
          exact WF.always
      | cons t1 ts2 =>
          cases hp : parseOr (12 * (t1 :: ts2).length + 12) (t1 :: ts2) with
          | error e => simp only [hp] at h; simp at h
          | ok pr =>
              obtain ⟨c2, rest⟩ := pr
              simp only [hp] at h
              cases rest with
              | nil =>
                  injection h with h2
                  rw [← h2]
                  exact ((parsers_sound _).2.2.2.2 (t1 :: ts2) c2 [] hts hp).1
              | cons r rest2 => simp at h

theorem serialize_parses (c : Condition) (hwf : WF c) : parse (serialize c) = .ok c := by
  have htok : tokenize (serialize c) = .ok (toksOr c) :=
    tokenize_render (toksOr c) (toks_tokWF c hwf).2.2
  rw [parse, htok]
  obtain ⟨t1, ts2, hts⟩ : ∃ t1 ts2, toksOr c = t1 :: ts2 := by
    cases h : toksOr c with
    | nil => exact absurd h (toksOr_ne_nil c hwf)
    | cons a b => exact ⟨a, b, rfl⟩
  rw [hts]
  have hp : parseOr (12 * (t1 :: ts2).length + 12) (t1 :: ts2) = .ok (c, []) := by
    have hlen : (toksOr c).length = (t1 :: ts2).length := by rw [hts]
    have h2 := (toks_parse c hwf).2.2 (12 * (t1 :: ts2).length + 12) []
      (by omega) (by simp) (by simp)
    rw [hts, List.append_nil] at h2
    exact h2
  simp only [hp]

/-- C3: for every condition text accepted by `parse`, serializing the
parsed tree re-parses to a structurally equal tree, so every saved rule's
stored condition text re-parses to its stored Condition — the rule editor's
save path stores the parse of the edited text together with that text. -/
theorem condition_roundtrip :
    (∀ (t : String) (c : Condition), parse t = .ok c → parse (serialize c) = .ok c)
    ∧ (∀ (draft : Rule) (text : String) (r : Rule),
        handleSaveRule draft text = some r →
        parse r.condition_text = .ok r.condition) := by
  constructor
  · intro t c h
    exact serialize_parses c (parse_sound t c h)
  · intro draft text r h
    rw [handleSaveRule] at h
    cases hp : parse text with
    | error e => rw [hp] at h; simp at h
    | ok c =>
        rw [hp] at h
        injection h with h2
        rw [← h2]
        exact hp

/-- Witness for C3 at a concrete input: the parse of `*.pdf AND *invoice*`
survives a serialize-and-reparse round trip. -/
theorem condition_roundtrip_witness :
    parse (serialize (.And [.Glob "*.pdf", .Glob "*invoice*"])) =
      .ok (.And [.Glob "*.pdf", .Glob "*invoice*"]) :=
  condition_roundtrip.1 "*.pdf AND *invoice*" (.And [.Glob "*.pdf", .Glob "*invoice*"])
    (by rfl)

end FolderOrg
